import Mathlib

set_option maxRecDepth 20000

/-!
Verification development for the offline MHTML → single-file HTML converter
(`src/convert.js`, final self-contained section: `parseMHTML`, `buildPartMap`,
`inlineCssUrlsWithMap`, `inlineCssImportsWithMap`, `rewriteHtmlWithMap` and the
root-selection loop of the main build).

The JavaScript source is shallowly embedded: strings are Lean `String`s
(scanned as `List Char`), byte buffers are `List Nat` (each entry < 256 where
it matters), JS `null`-able strings are `Option String`, thrown exceptions are
`Except`.  External libraries (`css-tree`, `cheerio`, `mime-types`, `iconv-lite`,
the WHATWG `URL` class, Node's `Buffer`) are modelled by small explicit
functions; each model is documented at its definition.  Unbounded recursion
(the `@import` inliner) is embedded with an explicit fuel parameter so that
termination and divergence become statable properties.
-/

namespace MHTML

/-- JS `\s` (ASCII fragment): the whitespace characters recognised by the
regexes in `convert.js`.  The source's regexes also accept rare Unicode
spaces; the container format in play is ASCII, so the model uses the ASCII
class. -/
def isSpaceJs (c : Char) : Bool :=
  c = ' ' || c = '\t' || c = '\n' || c = '\r' || c = '\x0b' || c = '\x0c'

/-- ASCII lower-casing, as `String.prototype.toLowerCase` acts on ASCII. -/
def lowerChar (c : Char) : Char :=
  if 'A' ≤ c ∧ c ≤ 'Z' then Char.ofNat (c.toNat + 32) else c

def lowerChars (s : List Char) : List Char := s.map lowerChar

def lowerStr (s : String) : String := ⟨lowerChars s.data⟩

/-- `String.prototype.trim` (ASCII whitespace fragment). -/
def trimChars (s : List Char) : List Char :=
  ((s.dropWhile isSpaceJs).reverse.dropWhile isSpaceJs).reverse

def trimStr (s : String) : String := ⟨trimChars s.data⟩

/-- Case-sensitive literal-prefix test returning the remainder on success. -/
def dropLit : List Char → List Char → Option (List Char)
  | [], s => some s
  | _ :: _, [] => none
  | p :: ps, c :: cs => if c = p then dropLit ps cs else none

/-- Case-insensitive (ASCII) literal-prefix test returning the remainder. -/
def dropLitCI : List Char → List Char → Option (List Char)
  | [], s => some s
  | _ :: _, [] => none
  | p :: ps, c :: cs => if lowerChar c = lowerChar p then dropLitCI ps cs else none

/-- `startsWith` for `List Char`, case-sensitive. -/
def startsWithL (p s : List Char) : Bool := (dropLit p s).isSome

/-- `startsWith` case-insensitively (models regexes with the `i` flag anchored
at the start, e.g. `/^cid!/i`). -/
def startsWithCI (p : String) (s : String) : Bool := (dropLitCI p.data s.data).isSome

/-- JS `String.prototype.startsWith` on whole strings (case-sensitive). -/
def startsWithS (p s : String) : Bool := startsWithL p.data s.data

/-- Leftmost occurrence test of a literal substring (models
`String.prototype.includes` / an unanchored regex literal). -/
def containsSub : List Char → List Char → Bool
  | _, [] => false
  | p, c :: cs => startsWithL p (c :: cs) || containsSub p cs

/-- `containsSub` on whole strings; for a nonempty pattern this is JS
`haystack.includes(pattern)`.  (The JS call also returns true for an empty
pattern; the source only ever passes nonempty literals.) -/
def containsStr (hay pat : String) : Bool :=
  pat.data.isEmpty || containsSub pat.data hay.data

/-- Index of the leftmost occurrence of a literal substring, as
`String.prototype.indexOf` (`none` models `-1`). -/
def indexOfSub (pat : List Char) : List Char → Option Nat
  | [] => if pat.isEmpty then some 0 else none
  | c :: cs =>
    if startsWithL pat (c :: cs) then some 0
    else (indexOfSub pat cs).map (· + 1)

/-- Splits on the leftmost occurrence of a literal separator, returning the
text before the separator and the text after it. -/
def splitOnceAt (pat : List Char) : List Char → Option (List Char × List Char)
  | [] => none
  | c :: cs =>
    match dropLit pat (c :: cs) with
    | some rest => some ([], rest)
    | none => (splitOnceAt pat cs).map (fun pr => (c :: pr.1, pr.2))

/-- `String.prototype.split(sep)` for a nonempty literal separator, with fuel
(the fuel is always instantiated above the input length, which suffices since
every step past a separator consumes at least one character). -/
def splitAllFuel (pat : List Char) : Nat → List Char → List (List Char)
  | 0, s => [s]
  | fuel + 1, s =>
    match splitOnceAt pat s with
    | none => [s]
    | some (pre, rest) => pre :: splitAllFuel pat fuel rest

def splitOn (sep : String) (s : String) : List String :=
  (splitAllFuel sep.data (s.data.length + 1) s.data).map (⟨·⟩)

/-- Split a header block into lines at `\r?\n` (models `block.split(/\r?\n/)`). -/
def splitLinesAux (cur : List Char) : List Char → List (List Char)
  | [] => [cur.reverse]
  | '\r' :: '\n' :: rest => cur.reverse :: splitLinesAux [] rest
  | '\n' :: rest => cur.reverse :: splitLinesAux [] rest
  | c :: rest => splitLinesAux (c :: cur) rest

def splitLines (s : String) : List String := (splitLinesAux [] s.data).map (⟨·⟩)

/-! ### Transfer decoders (§ `decodeQP`, the base64 branch of `parseMHTML`) -/

/-- Value of a base64 alphabet character.  Node's decoder accepts both the
standard and the URL-safe alphabet (RFC 4648 §4 and §5). -/
def b64Val (c : Char) : Option Nat :=
  if 'A' ≤ c ∧ c ≤ 'Z' then some (c.toNat - 65)
  else if 'a' ≤ c ∧ c ≤ 'z' then some (c.toNat - 97 + 26)
  else if '0' ≤ c ∧ c ≤ '9' then some (c.toNat - 48 + 52)
  else if c = '+' ∨ c = '-' then some 62
  else if c = '/' ∨ c = '_' then some 63
  else none

/-- Decode a list of 6-bit values into bytes (4 values → 3 bytes; a trailing
group of 3 values → 2 bytes, of 2 values → 1 byte, of 1 value → nothing). -/
def b64Groups : List Nat → List Nat
  | a :: b :: c :: d :: rest =>
    (a * 4 + b / 16) :: ((b % 16) * 16 + c / 4) :: ((c % 4) * 64 + d) :: b64Groups rest
  | [a, b, c] => [a * 4 + b / 16, (b % 16) * 16 + c / 4]
  | [a, b] => [a * 4 + b / 16]
  | [_] => []
  | [] => []

/-- Model of Node's `Buffer.from(string, "base64")`: characters outside the
base64 alphabet (including `=` padding and any whitespace) are silently
skipped, never an error; the surviving 6-bit values are decoded in groups. -/
def nodeB64Decode (s : List Char) : List Nat :=
  b64Groups (s.filterMap b64Val)

/-- Base64 alphabet character for a 6-bit value (standard alphabet, as
`Buffer.prototype.toString("base64")` emits). -/
def b64Char (n : Nat) : Char :=
  if n < 26 then Char.ofNat (65 + n)
  else if n < 52 then Char.ofNat (97 + (n - 26))
  else if n < 62 then Char.ofNat (48 + (n - 52))
  else if n = 62 then '+' else '/'

/-- Model of `Buffer.prototype.toString("base64")` (standard alphabet with
`=` padding). -/
def b64Encode : List Nat → List Char
  | x :: y :: z :: rest =>
    b64Char (x / 4) :: b64Char ((x % 4) * 16 + y / 16) ::
    b64Char ((y % 16) * 4 + z / 64) :: b64Char (z % 64) :: b64Encode rest
  | [x, y] =>
    [b64Char (x / 4), b64Char ((x % 4) * 16 + y / 16), b64Char ((y % 16) * 4), '=']
  | [x] => [b64Char (x / 4), b64Char ((x % 4) * 16), '=', '=']
  | [] => []

def hexVal (c : Char) : Option Nat :=
  if '0' ≤ c ∧ c ≤ '9' then some (c.toNat - 48)
  else if 'A' ≤ c ∧ c ≤ 'F' then some (c.toNat - 65 + 10)
  else if 'a' ≤ c ∧ c ≤ 'f' then some (c.toNat - 97 + 10)
  else none

/-- First pass of `decodeQP`: `.replace(/=\r?\n/g, "")` — remove soft line
breaks (leftmost, non-overlapping). -/
def qpSoft : List Char → List Char
  | '=' :: '\r' :: '\n' :: rest => qpSoft rest
  | '=' :: '\n' :: rest => qpSoft rest
  | c :: rest => c :: qpSoft rest
  | [] => []

/-- Second pass of `decodeQP`: `.replace(/=([A-Fa-f0-9]{2})/g, ...)` — decode
hex escapes via `String.fromCharCode`. -/
def qpHex : List Char → List Char
  | '=' :: a :: b :: rest =>
    match hexVal a, hexVal b with
    | some x, some y => Char.ofNat (16 * x + y) :: qpHex rest
    | _, _ => '=' :: qpHex (a :: b :: rest)
  | c :: rest => c :: qpHex rest
  | [] => []

/-- `decodeQP` from `convert.js`: soft-break removal then hex-escape decoding. -/
def decodeQP (s : List Char) : List Char := qpHex (qpSoft s)

/-- Model of `Buffer.from(string, "binary")`: each UTF-16 code unit is
truncated to its low byte. -/
def latin1Bytes (s : List Char) : List Nat := s.map (fun c => c.toNat % 256)

def isB64Cont (b : Nat) : Bool := 0x80 ≤ b ∧ b ≤ 0xBF

/-- UTF-8 decoding worker, structurally recursive on a fuel argument so it
reduces inside the kernel; each step consumes at least one byte, so a fuel of
`length + 1` is always enough. -/
def utf8DecodeFuel : Nat → List Nat → List Char
  | 0, _ => []
  | _ + 1, [] => []
  | n + 1, b :: rest =>
    if b < 0x80 then Char.ofNat b :: utf8DecodeFuel n rest
    else if 0xC2 ≤ b ∧ b ≤ 0xDF then
      match rest with
      | b2 :: rest2 =>
        if isB64Cont b2 then Char.ofNat ((b - 0xC0) * 64 + (b2 - 0x80)) :: utf8DecodeFuel n rest2
        else '�' :: utf8DecodeFuel n rest
      | [] => ['�']
    else if 0xE0 ≤ b ∧ b ≤ 0xEF then
      match rest with
      | b2 :: b3 :: rest3 =>
        if isB64Cont b2 ∧ isB64Cont b3 then
          Char.ofNat ((b - 0xE0) * 4096 + (b2 - 0x80) * 64 + (b3 - 0x80)) :: utf8DecodeFuel n rest3
        else '�' :: utf8DecodeFuel n rest
      | _ => ['�']
    else if 0xF0 ≤ b ∧ b ≤ 0xF4 then
      match rest with
      | b2 :: b3 :: b4 :: rest4 =>
        if isB64Cont b2 ∧ isB64Cont b3 ∧ isB64Cont b4 then
          Char.ofNat ((b - 0xF0) * 262144 + (b2 - 0x80) * 4096 + (b3 - 0x80) * 64 + (b4 - 0x80))
            :: utf8DecodeFuel n rest4
        else '�' :: utf8DecodeFuel n rest
      | _ => ['�']
    else '�' :: utf8DecodeFuel n rest

/-- Model of Node's `buf.toString("utf-8")`: standard UTF-8 decoding with
U+FFFD replacement on malformed sequences.  (Node may emit a different number
of replacement characters for some malformed runs; every claim below feeds
this function well-formed ASCII.) -/
def utf8Decode (bs : List Nat) : List Char := utf8DecodeFuel (bs.length + 1) bs

/-! ### Header parsing (`parseHeaders`, `getCharset`, the boundary regex) -/

/-- Header maps are modelled as association lists with JS-object semantics:
lookup returns the stored value; assignment overwrites in place or appends. -/
abbrev Headers := List (String × String)

def getHd (hs : Headers) (k : String) : Option String :=
  (List.find? (fun p => p.1 = k) hs).map (·.2)

def setHd (hs : Headers) (k v : String) : Headers :=
  if (List.find? (fun p => p.1 = k) hs).isSome then
    List.map (fun p => if p.1 = k then (p.1, v) else p) hs
  else hs ++ [(k, v)]

/-- `out[cur.name] += extra` (the key is always present when this runs). -/
def appendHd (hs : Headers) (k extra : String) : Headers :=
  List.map (fun p => if p.1 = k then (p.1, p.2 ++ extra) else p) hs

/-- JS `x || dflt` for a nullable string: `null`/`undefined` and the empty
string fall through to the default. -/
def jsOr (o : Option String) (dflt : String) : String :=
  match o with
  | some s => if s = "" then dflt else s
  | none => dflt

/-- One step of `parseHeaders`' loop: a line starting with whitespace while a
current header exists is a continuation (joined with one space, trimmed);
otherwise the line is matched against `^([^:]+):\s*(.*)$` (name = text before
the first colon, lower-cased un-trimmed; value = rest with leading whitespace
stripped); a line with no colon is skipped and leaves the current header. -/
def parseHeadersAux : Option String → Headers → List String → Headers
  | _, out, [] => out
  | cur, out, line :: rest =>
    if ((match line.data with | c :: _ => isSpaceJs c | [] => false) && cur.isSome) then
      match cur with
      | some name => parseHeadersAux cur (appendHd out name (" " ++ trimStr line)) rest
      | none => parseHeadersAux cur out rest
    else
      match splitOnceAt [':'] line.data with
      | some (before, after) =>
        if before = [] then parseHeadersAux cur out rest
        else
          let name := lowerStr ⟨before⟩
          parseHeadersAux (some name) (setHd out name ⟨after.dropWhile isSpaceJs⟩) rest
      | none => parseHeadersAux cur out rest

/-- `parseHeaders` from `convert.js`. -/
def parseHeaders (block : String) : Headers :=
  parseHeadersAux none [] (splitLines block)

/-- Attempt the regex `charset\s*=\s*("?)([^";]+)\1` (flag `i`) anchored at
the current position; the only consistent matches are a quoted token closed by
a quote, or an unquoted nonempty token (the backreference forces the close). -/
def tryCharsetAt (s : List Char) : Option String :=
  match dropLitCI "charset".data s with
  | none => none
  | some s1 =>
    match (s1.dropWhile isSpaceJs) with
    | '=' :: s3 =>
      match s3.dropWhile isSpaceJs with
      | '"' :: s5 =>
        let tok := s5.takeWhile (fun c => !(c = '"' || c = ';'))
        if tok ≠ [] ∧ (s5.drop tok.length).head? = some '"' then some ⟨tok⟩ else none
      | s4 =>
        let tok := s4.takeWhile (fun c => !(c = '"' || c = ';'))
        if tok ≠ [] then some ⟨tok⟩ else none
    | _ => none

def charsetScan : List Char → Option String
  | [] => none
  | c :: cs =>
    match tryCharsetAt (c :: cs) with
    | some t => some t
    | none => charsetScan cs

/-- `getCharset` from `convert.js` (`null`/missing argument is the empty
string after the JS `ct || ""` coercion). -/
def getCharset (ct : String) : String :=
  match charsetScan ct.data with
  | some tok => lowerStr (trimStr tok)
  | none => "utf-8"

/-- Attempt the regex `boundary="?([^"]+)"?` (flag `i`) at the current
position: an optional opening quote, then a nonempty greedy run of non-quote
characters, then an optional closing quote. -/
def tryBoundaryAt (s : List Char) : Option String :=
  match dropLitCI "boundary=".data s with
  | none => none
  | some s1 =>
    match s1 with
    | '"' :: s2 =>
      let tok := s2.takeWhile (fun c => !(c = '"'))
      if tok ≠ [] then some ⟨tok⟩ else none
    | _ =>
      let tok := s1.takeWhile (fun c => !(c = '"'))
      if tok ≠ [] then some ⟨tok⟩ else none

def boundaryScan : List Char → Option String
  | [] => none
  | c :: cs =>
    match tryBoundaryAt (c :: cs) with
    | some t => some t
    | none => boundaryScan cs

/-- The boundary extraction `/boundary="?([^"]+)"?/i.exec(ctype)` from
`parseMHTML`. -/
def boundaryOf (ctype : String) : Option String := boundaryScan ctype.data

/-! ### Reference keys (`normKey`, angle-bracket stripping) -/

/-- `normKey` from `convert.js`: trim, delete every CR/LF, turn backslashes
into slashes. -/
def normKey (u : String) : String :=
  ⟨((trimChars u.data).filter (fun c => !(c = '\r' || c = '\n'))).map
      (fun c => if c = '\\' then '/' else c)⟩

/-- `cid.replace(/^<|>$/g, "")`: drop one leading `<` and one trailing `>`. -/
def dropAngles (s : String) : String :=
  let s1 := match s.data with
    | '<' :: rest => rest
    | l => l
  ⟨match s1.reverse with
    | '>' :: rest => rest.reverse
    | _ => s1⟩

/-! ### The container parser (`parseMHTML`) -/

/-- The exceptions thrown inside the core: the two container failures of
`parseMHTML` and the missing-root failure of the main loop. -/
inductive PError where
  | invalidNoHeader
  | invalidNoBoundary
  | noHtmlPart
deriving DecidableEq, Repr

/-- One parsed MIME part, exactly the object pushed by `parseMHTML`. -/
structure Part where
  headers : Headers
  contentType : String
  charset : String
  contentLocation : Option String
  contentId : Option String
  buf : List Nat
  text : Option String
deriving DecidableEq, Repr

instance : Inhabited Part := ⟨⟨[], "", "", none, none, [], none⟩⟩

instance {ε α : Type} [DecidableEq ε] [DecidableEq α] : DecidableEq (Except ε α) := fun a b =>
  match a, b with
  | Except.ok x, Except.ok y =>
    if h : x = y then isTrue (by rw [h]) else isFalse (fun hc => by cases hc; exact h rfl)
  | Except.ok _, Except.error _ => isFalse (fun hc => by cases hc)
  | Except.error _, Except.ok _ => isFalse (fun hc => by cases hc)
  | Except.error x, Except.error y =>
    if h : x = y then isTrue (by rw [h]) else isFalse (fun hc => by cases hc; exact h rfl)

/-- `iconv.encodingExists` (external `iconv-lite` library).  Modelled as
supporting no encoding beyond Node's own UTF-8 path, so text decoding always
takes the UTF-8 branch; no claim below exercises a non-UTF-8 charset. -/
def iconvEncodingExists (_ : String) : Bool := false

/-- Strip a leading `\r?\n` (one occurrence), as `raw.replace(/^\r?\n/, "")`. -/
def stripLeadNl : List Char → List Char
  | '\r' :: '\n' :: rest => rest
  | '\n' :: rest => rest
  | s => s

/-- Leftmost match of the end-marker regex (dash, dash, `\s*`, end anchor):
returns the text before the matched suffix, or `none` when the string does not
end in `--` plus whitespace. -/
def dashEndSplit : List Char → Option (List Char)
  | [] => none
  | c :: cs =>
    if (c = '-' && (match cs with | '-' :: rest => rest.all isSpaceJs | _ => false)) then some []
    else (dashEndSplit cs).map (c :: ·)

/-- The per-chunk body of `parseMHTML`'s loop: strip the leading newline and
the terminal `--` marker, skip blank or separator-less chunks, split at the
first blank line, parse headers, and decode the body per its
`Content-Transfer-Encoding`. -/
def parsePart (raw0 : String) : Option Part :=
  let raw1 := stripLeadNl raw0.data
  let raw2 := match dashEndSplit raw1 with
    | some pre => pre
    | none => raw1
  if trimChars raw2 = [] then none
  else
    match indexOfSub "\r\n\r\n".data raw2 with
    | none => none
    | some idx =>
      let headerBlock : String := ⟨raw2.take idx⟩
      let bodyBin : List Char := raw2.drop (idx + 4)
      let ph := parseHeaders headerBlock
      let enc := lowerStr (jsOr (getHd ph "content-transfer-encoding") "")
      let ct := jsOr (getHd ph "content-type") "application/octet-stream"
      let charset := getCharset ct
      let buf : List Nat :=
        if containsStr enc "base64" then
          nodeB64Decode (bodyBin.filter (fun c => !isSpaceJs c))
        else if containsStr enc "quoted-printable" then
          latin1Bytes (decodeQP bodyBin)
        else latin1Bytes bodyBin
      -- The source picks `iconv.decode` for a supported non-UTF-8 charset and
      -- otherwise (or on a decode throw) falls back to `buf.toString("utf-8")`;
      -- with `iconvEncodingExists` modelled as `false` the UTF-8 branch is
      -- always the one taken.
      let textDecoded : Option String :=
        if startsWithCI "text/" ct then some ⟨utf8Decode buf⟩ else none
      let loc := getHd ph "content-location"
      let cid0 := getHd ph "content-id"
      let cid := match cid0 with
        | some c => if c = "" then some c else some (dropAngles c)
        | none => none
      some {
        headers := ph
        contentType := lowerStr (trimStr ((splitOn ";" ct).headD ""))
        charset := charset
        contentLocation := if jsOr loc "" = "" then none else some (normKey (jsOr loc ""))
        contentId := if jsOr cid "" = "" then none else some (normKey (jsOr cid ""))
        buf := buf
        text := textDecoded }

/-- `parseMHTML` from `convert.js`.  The input string is the container's byte
content (`buffer.toString("binary")` is the identity in this byte-string
model). -/
def parseMHTML (text : String) : Except PError (List Part) :=
  match indexOfSub "\r\n\r\n".data text.data with
  | none => .error .invalidNoHeader
  | some i =>
    let headText : String := ⟨text.data.take i⟩
    let headers := parseHeaders headText
    let ctype := jsOr (getHd headers "content-type") ""
    match boundaryOf ctype with
    | none => .error .invalidNoBoundary
    | some boundary =>
      let delim := "--" ++ boundary
      .ok (((splitOn delim text).drop 1).filterMap parsePart)

/-! ### Reference normalisation (`normalizeWeirdUrl`, `extractCidFromWeird`,
`resolveAgainst`) and library models (`URL`, `mime-types`) -/

/-- JS truthiness of a nullable string: `null`/`undefined` and `""` are falsy. -/
def optTruthy : Option String → Bool
  | some s => s ≠ ""
  | none => false

def isJsLineBreak (c : Char) : Bool := c = '\n' || c = '\r'

/-- Parse `^(https?)!([^!]+)(?:!(.*))?$` (flag `i`): lower-cased scheme, host,
and the optional remainder (which, being matched by `.*`, may not contain a
line break). -/
def weirdParse (s : List Char) : Option (String × String × List Char) :=
  match dropLitCI "http".data s with
  | none => none
  | some s1 =>
    let pick : Option (String × List Char) :=
      match s1 with
      | c :: t =>
        if lowerChar c = 's' then
          match t with
          | '!' :: r => some ("https", r)
          | _ => none
        else if c = '!' then some ("http", t)
        else none
      | [] => none
    match pick with
    | none => none
    | some (scheme, afterBang) =>
      let host := afterBang.takeWhile (fun c => !(c = '!'))
      if host = [] then none
      else
        match afterBang.drop host.length with
        | [] => some (scheme, ⟨host⟩, [])
        | '!' :: r => if r.any isJsLineBreak then none else some (scheme, ⟨host⟩, r)
        | _ => none

/-- `normalizeWeirdUrl` from `convert.js`: `https!host!a!b` →
`https://host/a/b`; anything not matching the placeholder shape is returned
unchanged. -/
def normalizeWeirdUrl (u : String) : String :=
  if u = "" then u
  else
    match weirdParse u.data with
    | some (scheme, host, rest) =>
      scheme ++ "://" ++ host ++ "/" ++ ⟨rest.map (fun c => if c = '!' then '/' else c)⟩
    | none => u

/-- `extractCidFromWeird` from `convert.js`: `cid!xyz@mhtml.blink` → `xyz`
(regex `^cid!([^@]+)@`, flag `i`). -/
def extractCidFromWeird (u : String) : Option String :=
  match dropLitCI "cid!".data u.data with
  | none => none
  | some s =>
    let tok := s.takeWhile (fun c => !(c = '@'))
    if tok ≠ [] ∧ (s.drop tok.length).head? = some '@' then some ⟨tok⟩ else none

/-- The guard regex `^(https?|http)!` (flag `i`): a `http`/`https` prefix
followed by a bang.  This is only a prefix test — `normalizeWeirdUrl` may
still return its argument unchanged when the full placeholder shape is not
present. -/
def weirdTest (href : String) : Bool :=
  match dropLitCI "http".data href.data with
  | none => false
  | some s1 =>
    match s1 with
    | c :: t =>
      if c = '!' then true
      else if lowerChar c = 's' then (match t with | '!' :: _ => true | _ => false)
      else false
    | [] => false

/-- Does the reference start with an ASCII URL scheme followed by `:`? -/
def hasScheme (s : List Char) : Bool :=
  match s with
  | c :: rest =>
    (('A' ≤ c ∧ c ≤ 'Z') ∨ ('a' ≤ c ∧ c ≤ 'z')) ∧
      (rest.dropWhile (fun d =>
        ('A' ≤ d ∧ d ≤ 'Z') ∨ ('a' ≤ d ∧ d ≤ 'z') ∨ ('0' ≤ d ∧ d ≤ '9') ∨
          d = '+' ∨ d = '-' ∨ d = '.')).head? = some ':'
  | [] => false

/-- Model of the WHATWG `new URL(href, base).toString()` (platform library).
Only the shapes the converter can feed it are modelled: the base must look
like `scheme://host[/path...]`, otherwise the constructor throws (`none`).
An absolute `href` wins; `//`, `/` and plain relative references are resolved
against the base in the RFC 3986 merge style, without dot-segment or
percent-encoding normalisation. -/
def jsNewURL (href : String) (base : String) : Option String :=
  match splitOnceAt "://".data base.data with
  | none => none
  | some (scheme, hostPath) =>
    if scheme = [] ∨ !(scheme.all (fun c => ('A' ≤ c ∧ c ≤ 'Z') ∨ ('a' ≤ c ∧ c ≤ 'z'))) then none
    else
      let host := hostPath.takeWhile (fun c => !(c = '/'))
      let path := hostPath.drop host.length
      if host = [] then none
      else if hasScheme href.data then some href
      else if startsWithL "//".data href.data then some (⟨scheme⟩ ++ ":" ++ href)
      else if startsWithL "/".data href.data then some (⟨scheme⟩ ++ "://" ++ ⟨host⟩ ++ href)
      else
        let dir := (path.reverse.dropWhile (fun c => !(c = '/'))).reverse
        let dir := if dir = [] then ['/'] else dir
        some (⟨scheme⟩ ++ "://" ++ ⟨host⟩ ++ ⟨dir⟩ ++ href)

/-- Model of `mime-types`' `lookup` (external library): extension-keyed MIME
table restricted to the types exercised here; everything else misses. -/
def mimeLookup (u : String) : Option String :=
  match (splitOn "." u).reverse with
  | ext :: _ :: _ =>
    match lowerStr ext with
    | "css" => some "text/css"
    | "html" => some "text/html"
    | "htm" => some "text/html"
    | "js" => some "application/javascript"
    | "png" => some "image/png"
    | "jpg" => some "image/jpeg"
    | "jpeg" => some "image/jpeg"
    | "gif" => some "image/gif"
    | "svg" => some "image/svg+xml"
    | "woff" => some "font/woff"
    | "woff2" => some "font/woff2"
    | "ico" => some "image/x-icon"
    | _ => none
  | _ => none

/-- `resolveAgainst` from `convert.js`. -/
def resolveAgainst (base : Option String) (href : String) : String :=
  if href = "" then href
  else if startsWithCI "data:" href ∨ startsWithCI "cid:" href ∨ startsWithCI "blob:" href ∨
      startsWithCI "about:" href ∨ startsWithCI "file:" href then href
  else if weirdTest href then normalizeWeirdUrl href
  else if startsWithCI "https://" href ∨ startsWithCI "http://" href then href
  else if optTruthy base then
    match jsNewURL href (base.getD "") with
    | some abs => abs
    | none => href
  else href

/-! ### The asset index (`toDataURI`, `buildPartMap`) -/

/-- `toDataURI` from `convert.js`. -/
def toDataURI (buf : List Nat) (contentType : String) : String :=
  let ct := if contentType = "" then "application/octet-stream" else contentType
  "data:" ++ ct ++ ";base64," ++ ⟨b64Encode buf⟩

/-- The object stored in the part map: the part's fields spread together with
its eagerly computed `dataURI` (and, for parts without a declared type, the
MIME type guessed from the location — the source's late `value.contentType`
assignment, which lands before the map is ever read). -/
structure PValue extends Part where
  dataURI : String
deriving DecidableEq, Repr

/-- `hit.text || hit.buf.toString("utf-8")` — the stylesheet/script text of a
resolved part. -/
def hitText (v : PValue) : String :=
  match v.text with
  | some t => if t = "" then ⟨utf8Decode v.buf⟩ else t
  | none => ⟨utf8Decode v.buf⟩

/-- The value `{ ...p, dataURI }` built per part, with the guessed
`contentType` folded in. -/
def mkValue (p : Part) : PValue :=
  let dataCT :=
    if p.contentType ≠ "" then p.contentType
    else match p.contentLocation with
      | some l => (mimeLookup l).getD "application/octet-stream"
      | none => "application/octet-stream"
  let vCT :=
    if (optTruthy p.contentLocation && (p.contentType = "")) then
      match (mimeLookup (p.contentLocation.getD "")) with
      | some mt => mt
      | none => p.contentType
    else p.contentType
  { p with contentType := vCT, dataURI := toDataURI p.buf dataCT }

abbrev PartMap := List (String × PValue)

def mapGet (m : PartMap) (k : String) : Option PValue :=
  (List.find? (fun p => p.1 = k) m).map (·.2)

/-- `addKey` from `buildPartMap`: empty keys are ignored and an existing entry
is never overwritten (`if (!byKey.has(key)) byKey.set(key, value)`). -/
def addKey (m : PartMap) (k : String) (v : PValue) : PartMap :=
  if k = "" then m
  else if (mapGet m k).isSome then m
  else m ++ [(k, v)]

/-- The keys `buildPartMap` registers for one part, in registration order:
the verbatim (normalised) `Content-Location`, its base-resolved absolute form
(when both the base and the location are truthy and `new URL` succeeds), and —
when a `Content-ID` exists — `cid:<id>`, the bare `<id>`, and the Chrome
placeholder `cid!<id>@mhtml.blink`. -/
def partKeys (p : Part) (docBase : Option String) : List String :=
  [normKey (jsOr p.contentLocation "")] ++
  (if (optTruthy docBase && optTruthy p.contentLocation) then
    match jsNewURL (p.contentLocation.getD "") (docBase.getD "") with
    | some abs => [normKey abs]
    | none => []
  else []) ++
  (if optTruthy p.contentId then
    ["cid:" ++ normKey (p.contentId.getD ""), normKey (p.contentId.getD "")]
  else []) ++
  (if optTruthy p.contentId then
    ["cid!" ++ normKey (p.contentId.getD "") ++ "@mhtml.blink"]
  else [])

/-- The keys that actually land in the map for one part (the `addKey` guard
drops empty keys). -/
def regKeys (p : Part) (docBase : Option String) : List String :=
  (partKeys p docBase).filter (fun k => k ≠ "")

/-- `buildPartMap` from `convert.js`. -/
def buildPartMap (parts : List Part) (docBase : Option String) : PartMap :=
  parts.foldl (fun m p => (partKeys p docBase).foldl (fun m k => addKey m k (mkValue p)) m) []

/-! ### The CSS rewriters (`inlineCssUrlsWithMap`, `inlineCssImportsWithMap`) -/

def isQuote (c : Char) : Bool := c = '\'' || c = '"'

/-- `.replace(/^['"]|['"]$/g, "")`: drop one leading and one trailing quote. -/
def stripQuotes (s : String) : String :=
  let s1 := match s.data with
    | c :: rest => if isQuote c then rest else s.data
    | [] => []
  ⟨match s1.reverse with
    | c :: rest => if isQuote c then rest.reverse else s1
    | [] => []⟩

/-- Model of the `css-tree` AST at the granularity the converter uses: a
stylesheet is a sequence of verbatim chunks and `url(...)` tokens (`csstree`'s
`Url` nodes, recognised case-insensitively).  `value` is the verbatim text
between the parentheses (quotes included — the source defensively strips them
before testing); `closing` is `)` for a terminated token.  Regeneration
(`csstree.generate`) is modelled as byte-exact for untouched nodes; the real
serializer may renormalise quoting, which no claim below depends on.  Like the
source's regex passes, the model does not track CSS comments or strings. -/
inductive CssItem where
  | raw (s : List Char)
  | url (opening : List Char) (value : List Char) (closing : List Char)
deriving DecidableEq, Repr

/-- `csstree.parse` restricted to locating `url(...)` tokens; structurally
recursive on fuel (a fuel above the text length always suffices). -/
def cssParseFuel : Nat → List Char → List CssItem
  | 0, s => if s = [] then [] else [.raw s]
  | _ + 1, [] => []
  | n + 1, c :: cs =>
    match dropLitCI "url(".data (c :: cs) with
    | some afterOpen =>
      match afterOpen.dropWhile (fun d => !(d = ')')) with
      | ')' :: r2 =>
        .url ((c :: cs).take 4) (afterOpen.takeWhile (fun d => !(d = ')'))) [')'] ::
          cssParseFuel n r2
      | _ => [.raw (c :: cs)]
    | none => .raw [c] :: cssParseFuel n cs

def cssParse (s : String) : List CssItem := cssParseFuel (s.data.length + 1) s.data

def cssGenerate (items : List CssItem) : List Char :=
  items.foldr (fun it acc =>
    match it with
    | .raw s => s ++ acc
    | .url o v c => o ++ v ++ c ++ acc) []

/-- The hit chain for one `url(...)` argument in `inlineCssUrlsWithMap`
(after quote stripping and placeholder normalisation). -/
def cssUrlLookup (raw0 : String) (baseHref : Option String) (map : PartMap) : Option PValue :=
  let raw := if weirdTest raw0 then normalizeWeirdUrl raw0 else raw0
  let normRaw := normKey (resolveAgainst baseHref raw)
  mapGet map normRaw <|> mapGet map ("cid:" ++ raw) <|> mapGet map raw <|>
  (if startsWithS "cid:" raw then mapGet map (normKey raw) else none) <|>
  (if startsWithS "cid!" raw then mapGet map raw else none)

/-- The walk body of `inlineCssUrlsWithMap`: `data:` arguments are skipped;
a hit replaces the node value with the asset's `dataURI`; a miss leaves the
node untouched. -/
def rewriteUrlItem (baseHref : Option String) (map : PartMap) : CssItem → CssItem
  | .raw s => .raw s
  | .url o v c =>
    let raw := stripQuotes ⟨v⟩
    if startsWithS "data:" raw then .url o v c
    else
      match cssUrlLookup raw baseHref map with
      | some hit => .url o hit.dataURI.data c
      | none => .url o v c

/-- `inlineCssUrlsWithMap` from `convert.js` (synchronous in this model: the
map lookups it awaits are pure). -/
def inlineCssUrlsWithMap (css : String) (baseHref : Option String) (map : PartMap) : String :=
  if css = "" then css
  else ⟨cssGenerate ((cssParse css).map (rewriteUrlItem baseHref map))⟩

/-- The tail of the `@import` regex after the target group: `\s*([^;]*);` —
skip whitespace, swallow the greedy run of non-semicolons (the media capture,
which the source never reads), then a mandatory `;`.  Returns the suffix after
the match. -/
def finishImport (cap : String) (s6 : List Char) : Option (String × List Char) :=
  match (s6.dropWhile isSpaceJs).dropWhile (fun c => !(c = ';')) with
  | ';' :: s8 => some (cap, s8)
  | _ => none

/-- The head of the `@import` regex: the literal `@import` (case-insensitive)
followed by mandatory whitespace (`\s+`), returning the text after the
whitespace run. -/
def importAfterKeyword (s : List Char) : Option (List Char) :=
  match dropLitCI "@import".data s with
  | none => none
  | some s1 =>
    match s1 with
    | c0 :: _ => if isSpaceJs c0 then some (s1.dropWhile isSpaceJs) else none
    | [] => none

/-- The `url(\s*([^)\s]+)\s*\)` alternative of the `@import` regex, applied
to the text after `url(`: skip whitespace, capture the greedy nonempty run of
non-space-non-paren characters, skip whitespace, require `)`.  The target
alternation is deterministic — the branches are distinguished by the first
character, and the greedy token/backreference combinations admit a single
parse. -/
def importTargetUrl (s3 : List Char) : Option (String × List Char) :=
  if (s3.dropWhile isSpaceJs).takeWhile (fun c => !(isSpaceJs c || c = ')')) = [] then none
  else
    match ((s3.dropWhile isSpaceJs).dropWhile
        (fun c => !(isSpaceJs c || c = ')'))).dropWhile isSpaceJs with
    | ')' :: s6 =>
      some (⟨(s3.dropWhile isSpaceJs).takeWhile (fun c => !(isSpaceJs c || c = ')'))⟩, s6)
    | _ => none

/-- The quoted alternative `(['"])(.*?)\2`: the lazy body is the run up to the
first matching quote, which must occur before any line break. -/
def importTargetQuote : List Char → Option (String × List Char)
  | [] => none
  | q :: s3 =>
    if isQuote q then
      match s3.dropWhile (fun c => !(c = q || isJsLineBreak c)) with
      | c :: s4 =>
        if c = q then
          some (⟨s3.takeWhile (fun c => !(c = q || isJsLineBreak c))⟩, s4)
        else none
      | [] => none
    else none

def importTarget (s2 : List Char) : Option (String × List Char) :=
  match dropLitCI "url(".data s2 with
  | some s3 => importTargetUrl s3
  | none => importTargetQuote s2

/-- Attempt the `@import` regex of `inlineCssImportsWithMap` anchored at the
current position. -/
def matchImportAt (s : List Char) : Option (String × List Char) :=
  (importAfterKeyword s).bind fun s2 =>
    (importTarget s2).bind fun pr => finishImport pr.1 pr.2

/-- `importRe.exec` scanning: the leftmost position at which the `@import`
regex matches, returning the text before the match, the captured target and
the suffix after the match. -/
def findImport : List Char → Option (List Char × String × List Char)
  | [] => none
  | c :: cs =>
    match matchImportAt (c :: cs) with
    | some (cap, suf) => some ([], cap, suf)
    | none => (findImport cs).map (fun pr => (c :: pr.1, pr.2.1, pr.2.2))

/-- The target resolution of one `@import` in `inlineCssImportsWithMap`:
quote stripping, placeholder normalisation, `resolveAgainst`, then the
three-step map lookup. -/
def importResolve (cap : String) (baseHref : Option String) (map : PartMap) : Option PValue :=
  let importUrl0 := stripQuotes cap
  let importUrl := if weirdTest importUrl0 then normalizeWeirdUrl importUrl0 else importUrl0
  let target := normKey (resolveAgainst baseHref importUrl)
  mapGet map target <|> mapGet map importUrl <|> mapGet map (normKey importUrl)

/-- The recursive worker of `inlineCssImportsWithMap`, with an explicit fuel:
one unit of fuel is spent per processed `@import` match and per recursive
descent into an imported stylesheet, so the JS function's (call-stack
unbounded) recursion terminates on an input exactly when some finite fuel
suffices for it.  A dropped (unresolved) import consumes the match and
continues; a hit splices in the recursively rewritten, then url-inlined,
imported text, rebased to the imported part's own location. -/
def impGo (map : PartMap) : Nat → List Char → Option String → Option (List Char)
  | 0, _, _ => none
  | n + 1, s, base =>
    match findImport s with
    | none => some s
    | some (pre, cap, suf) =>
      match importResolve cap base map with
      | none =>
        match impGo map n suf base with
        | some r => some (pre ++ r)
        | none => none
      | some hit =>
        let newBase : Option String :=
          if optTruthy hit.contentLocation then hit.contentLocation else base
        match impGo map n (hitText hit).data newBase with
        | none => none
        | some innerRewritten =>
          let innerFinal := inlineCssUrlsWithMap ⟨innerRewritten⟩ newBase map
          match impGo map n suf base with
          | none => none
          | some rest => some (pre ++ innerFinal.data ++ rest)

/-- `inlineCssImportsWithMap` from `convert.js`, under a fuel budget:
`some out` means the JS call returns `out` within that budget; if no fuel
makes it `some`, the JS recursion never returns. -/
def inlineCssImportsFuel (fuel : Nat) (css : String) (baseHref : Option String)
    (map : PartMap) : Option String :=
  (impGo map fuel css.data baseHref).map (⟨·⟩)

/-- The import pass specialised to an everywhere-missing map: every matched
`@import` is dropped, the rest of the text is kept verbatim. -/
def dropGo : Nat → List Char → List Char
  | 0, s => s
  | n + 1, s =>
    match findImport s with
    | none => s
    | some (pre, _, suf) => pre ++ dropGo n suf

def dropImportsAll (s : String) : String := ⟨dropGo (s.data.length + 1) s.data⟩

/-! ### The HTML rewriter (`rewriteHtmlWithMap`)

The cheerio DOM is modelled as the list of elements in document order; only
an element's tag, attributes and inner text are represented, because every
rewriter pass reads and writes exactly those (no pass consults ancestry), and
cheerio's serialisation is modelled as the identity on this structure.  The
`replaceWith`/`remove` calls become list surgery; the selector iterations
become sequential whole-list passes, which also reproduces the fact that
`<style>` elements created by the stylesheet pass are seen again by the
`$("style")` pass. -/

structure HElem where
  tag : String
  attrs : List (String × String)
  inner : String
deriving DecidableEq, Repr

def getAttr (e : HElem) (k : String) : Option String :=
  (List.find? (fun p => p.1 = k) e.attrs).map (·.2)

/-- Replace the value of the first attribute with this name, or append it —
cheerio's attribute table has unique names, which the first-occurrence
discipline reproduces on the association list. -/
def setAttrList : List (String × String) → String → String → List (String × String)
  | [], k, v => [(k, v)]
  | (k0, v0) :: rest, k, v =>
    if k0 = k then (k0, v) :: rest else (k0, v0) :: setAttrList rest k v

def setAttr (e : HElem) (k v : String) : HElem :=
  { e with attrs := setAttrList e.attrs k v }

def removeAttr (e : HElem) (k : String) : HElem :=
  { e with attrs := e.attrs.filter (fun p => !(p.1 = k)) }

def isStylesheetLink (e : HElem) : Bool :=
  e.tag = "link" && getAttr e "rel" = some "stylesheet" && (getAttr e "href").isSome

def isPrefetchLink (e : HElem) : Bool :=
  e.tag = "link" &&
    (getAttr e "rel" = some "preconnect" || getAttr e "rel" = some "dns-prefetch" ||
     getAttr e "rel" = some "preload" || getAttr e "rel" = some "prefetch")

def isIconLink (e : HElem) : Bool :=
  e.tag = "link" &&
    (getAttr e "rel" = some "icon" || getAttr e "rel" = some "shortcut icon" ||
     getAttr e "rel" = some "apple-touch-icon")

/-- `href.replace(/^cid:/, "")` (case-sensitive, no flag). -/
def jsDropCid (s : String) : String :=
  if startsWithS "cid:" s then ⟨s.data.drop 4⟩ else s

/-- The five-lookup hit chain of the stylesheet pass. -/
def hitChain5 (r : String) (docBase : Option String) (map : PartMap) : Option PValue :=
  let key := normKey (resolveAgainst docBase r)
  mapGet map key <|> mapGet map r <|> mapGet map (normKey r) <|>
  mapGet map ("cid:" ++ r) <|> mapGet map (jsDropCid r)

/-- The seven-lookup hit chain of the img/script/icon passes. -/
def hitChain7 (r : String) (docBase : Option String) (map : PartMap) : Option PValue :=
  let key := normKey (resolveAgainst docBase r)
  mapGet map key <|> mapGet map r <|> mapGet map (normKey r) <|>
  mapGet map ("cid:" ++ r) <|> mapGet map (jsDropCid r) <|>
  (if startsWithS "cid!" r then mapGet map r else none) <|>
  (match extractCidFromWeird r with
   | some c => mapGet map ("cid:" ++ c)
   | none => none)

/-- The placeholder pre-step shared by every pass:
`if (/^(https?|http)!/i.test(x)) x = normalizeWeirdUrl(x)`. -/
def weirdFix (r : String) : String :=
  if weirdTest r then normalizeWeirdUrl r else r

/-- Pass 1: `$("base[href]").first().attr("href", ".")`. -/
def passBase : List HElem → List HElem
  | [] => []
  | e :: rest =>
    if (e.tag = "base" && (getAttr e "href").isSome) then setAttr e "href" "." :: rest
    else e :: passBase rest

/-- Pass 2: stylesheet links — a hit is replaced by an inline `<style>` whose
text went through the import and url inliners (rebased to the hit's own
location); a miss removes the element only for a `cid!` placeholder href. -/
def passStylesheets (fuel : Nat) (docBase : Option String) (map : PartMap) :
    List HElem → Option (List HElem)
  | [] => some []
  | e :: rest =>
    if isStylesheetLink e then
      let href := weirdFix ((getAttr e "href").getD "")
      match hitChain5 href docBase map with
      | some hit =>
        let newBase := if optTruthy hit.contentLocation then hit.contentLocation else docBase
        match inlineCssImportsFuel fuel (hitText hit) newBase map with
        | none => none
        | some css1 =>
          (passStylesheets fuel docBase map rest).map
            (⟨"style", [], inlineCssUrlsWithMap css1 newBase map⟩ :: ·)
      | none =>
        if startsWithCI "cid!" href then passStylesheets fuel docBase map rest
        else (passStylesheets fuel docBase map rest).map (e :: ·)
    else (passStylesheets fuel docBase map rest).map (e :: ·)

/-- Pass 3: `<style>` elements — run the import inliner then the url inliner
over the element text. -/
def passStyleElems (fuel : Nat) (docBase : Option String) (map : PartMap) :
    List HElem → Option (List HElem)
  | [] => some []
  | e :: rest =>
    if e.tag = "style" then
      match inlineCssImportsFuel fuel e.inner docBase map with
      | none => none
      | some css1 =>
        (passStyleElems fuel docBase map rest).map
          ({ e with inner := inlineCssUrlsWithMap css1 docBase map } :: ·)
    else (passStyleElems fuel docBase map rest).map (e :: ·)

/-- Pass 4: `style` attributes — url inlining only; an absent or empty
attribute is skipped. -/
def passStyleAttrs (docBase : Option String) (map : PartMap) (l : List HElem) : List HElem :=
  l.map (fun e =>
    match getAttr e "style" with
    | some css => if css = "" then e else setAttr e "style" (inlineCssUrlsWithMap css docBase map)
    | none => e)

/-- Pass 5: `img[src]` — a hit replaces the `src` with the data URI. -/
def passImgs (docBase : Option String) (map : PartMap) (l : List HElem) : List HElem :=
  l.map (fun e =>
    if (e.tag = "img" && (getAttr e "src").isSome) then
      let src := weirdFix ((getAttr e "src").getD "")
      match hitChain7 src docBase map with
      | some hit => setAttr e "src" hit.dataURI
      | none => e
    else e)

/-- Pass 6: `script[src]` — a hit removes the `src` attribute and inlines the
script text. -/
def passScripts (docBase : Option String) (map : PartMap) (l : List HElem) : List HElem :=
  l.map (fun e =>
    if (e.tag = "script" && (getAttr e "src").isSome) then
      let src := weirdFix ((getAttr e "src").getD "")
      match hitChain7 src docBase map with
      | some hit => { removeAttr e "src" with inner := hitText hit }
      | none => e
    else e)

/-- Pass 7: icon links — a hit replaces the `href` with the data URI. -/
def passIcons (docBase : Option String) (map : PartMap) (l : List HElem) : List HElem :=
  l.map (fun e =>
    if isIconLink e then
      let href := weirdFix ((getAttr e "href").getD "")
      match hitChain7 href docBase map with
      | some hit => setAttr e "href" hit.dataURI
      | none => e
    else e)

/-- Pass 8: `a[href^="cid:"], a[href^="cid!"]` — resolve the content-id and
replace the `href` with the data URI on a hit.  (A `cid!` href without an `@`
makes `extractCidFromWeird` return `null`, and the JS string concatenation
then looks up the literal key `cid:null`.) -/
def passACids (map : PartMap) (l : List HElem) : List HElem :=
  l.map (fun e =>
    match getAttr e "href" with
    | some h =>
      if (e.tag = "a" && (startsWithS "cid:" h || startsWithS "cid!" h)) then
        let cid := if startsWithS "cid!" h then extractCidFromWeird h
          else some (if startsWithCI "cid:" h then ⟨h.data.drop 4⟩ else h)
        let hit := mapGet map ("cid:" ++ (cid.getD "null")) <|>
          (match cid with | some c => mapGet map c | none => none)
        match hit with
        | some v => setAttr e "href" v.dataURI
        | none => e
      else e
    | none => e)

/-- `rewriteHtmlWithMap` from `convert.js`, over the flat document model, with
the fuel threaded into each CSS-import call. -/
def rewriteHtmlFuel (fuel : Nat) (doc : List HElem) (docBase : Option String)
    (map : PartMap) : Option (List HElem) :=
  (passStylesheets fuel docBase map (passBase doc)).bind fun d2 =>
    (passStyleElems fuel docBase map d2).bind fun d3 =>
      some (((passACids map
        (passIcons docBase map
          (passScripts docBase map
            (passImgs docBase map
              (passStyleAttrs docBase map d3))))).filter (fun e => !isPrefetchLink e)))

/-! ### Root selection and the orchestrator (`main` loop) -/

/-- Stable insertion step for the comparator `(a, b) => b.buf.length -
a.buf.length`: the new element goes after every element at least as long. -/
def insDesc (x : Part) : List Part → List Part
  | [] => [x]
  | y :: ys => if x.buf.length ≤ y.buf.length then y :: insDesc x ys else x :: y :: ys

/-- Model of `Array.prototype.sort` with the descending-length comparator:
ECMAScript guarantees a stable, comparator-sorted result, realised here as a
stable insertion sort. -/
def jsStableSortDesc (l : List Part) : List Part :=
  l.foldl (fun acc x => insDesc x acc) []

/-- The root-selection block of the main loop: filter to parts whose
`contentType` starts with `text/html`, throw when none, stable-sort by
descending decoded length and take the first element. -/
def selectRootE (parts : List Part) : Except PError Part :=
  match parts.filter (fun p => startsWithS "text/html" p.contentType) with
  | [] => .error .noHtmlPart
  | x :: xs => .ok ((jsStableSortDesc (x :: xs)).headD x)

/-- The fatal-error path of one conversion: parse the container and choose the
root part.  The subsequent steps (index construction, tree rewriting) are
total, so a conversion produces output exactly when this succeeds; the tree
rewrite itself is `rewriteHtmlFuel` above. -/
def convertCore (s : String) : Except PError (Part × List Part) :=
  match parseMHTML s with
  | .error e => .error e
  | .ok parts =>
    match selectRootE parts with
    | .error e => .error e
    | .ok root => .ok (root, parts)

/-! ### Specification-side comparators and predicates -/

/-- Spec §4.2: a blank-line-terminated header block exists (the parser's blank
line is CRLF CRLF). -/
def hasHeaderBlock (s : String) : Bool := containsSub "\r\n\r\n".data s.data

/-- Spec §4.2: the outer `Content-Type` header has no parsable `boundary`
parameter (only meaningful when a header block exists). -/
def specNoBoundary (s : String) : Bool :=
  match indexOfSub "\r\n\r\n".data s.data with
  | some i => (boundaryOf (jsOr (getHd (parseHeaders ⟨s.data.take i⟩) "content-type") "")).isNone
  | none => false

/-- The `MalformedContainer` taxonomy of §7: either of the two container
throws. -/
def isMalformedContainer (e : PError) : Prop :=
  e = PError.invalidNoHeader ∨ e = PError.invalidNoBoundary

/-- Termination of the JS `inlineCssImportsWithMap` call on an input: some
finite budget of loop steps and recursion depth completes it. -/
def cssImportTerminates (css : String) (base : Option String) (map : PartMap) : Prop :=
  ∃ fuel out, inlineCssImportsFuel fuel css base map = some out

/-- Spec §4.6 root choice, stated directly: `r` occurs in `l`, no element is
longer, and everything before `r` is strictly shorter (ties go to the
first-encountered part). -/
def IsFirstLargest (l : List Part) (r : Part) : Prop :=
  ∃ l1 l2, l = l1 ++ r :: l2 ∧ (∀ q ∈ l, q.buf.length ≤ r.buf.length) ∧
    ∀ q ∈ l1, q.buf.length < r.buf.length

/-- The head of the stable descending sort, tracked as a running first-max. -/
def fmStep (b : Option Part) (x : Part) : Option Part :=
  some (match b with
    | none => x
    | some y => if x.buf.length ≤ y.buf.length then y else x)

/-- The all-misses normal form of the HTML rewriter, stated from the spec's
exception list as corrected: first `base[href]` forced to `.`, unresolved
`cid!`-placeholder stylesheet links and prefetch-family links removed, and
recognised `@import` rules dropped from `<style>` texts; everything else is
untouched. -/
def stripHintsStep (e : HElem) : Option HElem :=
  if isPrefetchLink e then none
  else if (isStylesheetLink e && startsWithCI "cid!" (weirdFix ((getAttr e "href").getD ""))) then
    none
  else if e.tag = "style" then some { e with inner := dropImportsAll e.inner }
  else some e

def stripHints (doc : List HElem) : List HElem := (passBase doc).filterMap stripHintsStep

/-- A reference string that is a well-behaved data URI: `data:`-prefixed and
fixed by `normKey` (true of every payload the rewriter itself emits). -/
def dataCleanRef (r : String) : Bool :=
  startsWithL "data:".data r.data && normKey r = r

/-- Every `url(...)` argument of the stylesheet text is already a data URI. -/
def cssAllData (s : String) : Bool :=
  (cssParse s).all (fun it =>
    match it with
    | .raw _ => true
    | .url _ v _ => startsWithS "data:" (stripQuotes ⟨v⟩))

/-- Spec §8 "Idempotence" hypothesis on one element: no reference the
rewriter acts on remains unresolved or external — only `data:` payloads,
`base href="."`, no stylesheet/prefetch links, no `cid:`-anchors, and `<style>`
texts without recognised imports or non-data urls. -/
def elemEmbedded (e : HElem) : Bool :=
  (!isPrefetchLink e) &&
  (!isStylesheetLink e) &&
  (if isIconLink e then (match getAttr e "href" with | some h => dataCleanRef h | none => true)
   else true) &&
  (if e.tag = "img" then (match getAttr e "src" with | some s => dataCleanRef s | none => true)
   else true) &&
  (if e.tag = "script" then (match getAttr e "src" with | some s => dataCleanRef s | none => true)
   else true) &&
  (if e.tag = "style" then ((findImport e.inner.data).isNone && cssAllData e.inner) else true) &&
  (if e.tag = "a" then
    (match getAttr e "href" with
     | some h => !(startsWithS "cid:" h || startsWithS "cid!" h)
     | none => true)
   else true) &&
  (if e.tag = "base" then (match getAttr e "href" with | some h => h = "." | none => true)
   else true) &&
  (match getAttr e "style" with | some v => (v = "" || cssAllData v) | none => true)

def docEmbedded (doc : List HElem) : Bool := doc.all elemEmbedded

/-- Sanity condition on a part map for the idempotence claim: no lookup key of
an already-embedded reference can collide with it (true of every map
`buildPartMap` builds from real parts: keys are locations or `cid:`-forms of
nonempty ids, never `data:` strings, bare `cid:`, or empty). -/
def mapClean (m : PartMap) : Bool :=
  m.all (fun kv =>
    !startsWithL "data:".data kv.1.data && !startsWithL "cid:data:".data kv.1.data &&
    kv.1 ≠ "cid:" && kv.1 ≠ "")

/-! ### Concrete fixtures used by the development -/

/-- A stylesheet part that imports `b.css`. -/
def cssA : String := "@import url(b.css);"

/-- A stylesheet part that imports `a.css`. -/
def cssB : String := "@import url(a.css);"

def partA : Part :=
  { headers := [("content-type", "text/css"), ("content-location", "a.css")]
    contentType := "text/css", charset := "utf-8"
    contentLocation := some "a.css", contentId := none
    buf := [], text := some cssA }

def partB : Part :=
  { headers := [("content-type", "text/css"), ("content-location", "b.css")]
    contentType := "text/css", charset := "utf-8"
    contentLocation := some "b.css", contentId := none
    buf := [], text := some cssB }

/-- The asset index of a container holding the two mutually importing
stylesheets. -/
def cycleMap : PartMap := buildPartMap [partA, partB] none

/-- A container whose single part declares base64 but carries `*`, a
character outside the base64 alphabet, in its body. -/
def c2container : String :=
  "Content-Type: multipart/related; boundary=\"B\"\r\n\r\n--B\r\nContent-Transfer-Encoding: base64\r\nContent-Type: image/png\r\n\r\nQU J*D\r\n--B--\r\n"

/-- The part `parseMHTML` produces for `c2container`: the whitespace is
stripped, the `*` is silently skipped, and the surviving `QUJD` decodes to
`ABC`. -/
def c2part : Part :=
  { headers := [("content-transfer-encoding", "base64"), ("content-type", "image/png")]
    contentType := "image/png", charset := "utf-8"
    contentLocation := none, contentId := none
    buf := [65, 66, 67], text := none }

/-- A container whose single part has content type `text/htmlx`: a strict
prefix-extension of `text/html` that is not equal to it. -/
def c4container : String :=
  "Content-Type: multipart/related; boundary=\"B\"\r\n\r\n--B\r\nContent-Type: text/htmlx\r\n\r\n<html></html>\r\n--B--\r\n"

/-- The part `parseMHTML` produces for `c4container`. -/
def c4part : Part :=
  { headers := [("content-type", "text/htmlx")]
    contentType := "text/htmlx", charset := "utf-8"
    contentLocation := none, contentId := none
    buf := [60, 104, 116, 109, 108, 62, 60, 47, 104, 116, 109, 108, 62, 13, 10]
    text := some "<html></html>\r\n" }

/-- A PNG part carrying `Content-ID: <abc123>`. -/
def pImg : Part :=
  { headers := [("content-type", "image/png"), ("content-id", "<abc123>")]
    contentType := "image/png", charset := "utf-8"
    contentLocation := none, contentId := some "abc123"
    buf := [137], text := none }

/-- A second part claiming the same `Content-ID` with a different payload. -/
def pImg2 : Part :=
  { headers := [("content-type", "image/png"), ("content-id", "<abc123>")]
    contentType := "image/png", charset := "utf-8"
    contentLocation := none, contentId := some "abc123"
    buf := [1, 2, 3], text := none }

/-- An `@import` rule in a syntax the rewriter's regex does not recognise
(neither `url(...)` nor a plain quoted target after the keyword). -/
def c6css : String := "@import layer(base) \"x.css\";"

/-- A stylesheet part registered under the location `sub.css`. -/
def partSub : Part :=
  { headers := [("content-type", "text/css"), ("content-location", "sub.css")]
    contentType := "text/css", charset := "utf-8"
    contentLocation := some "sub.css", contentId := none
    buf := [], text := some "body{color:red}" }

/-- The asset index of a container holding only `partSub`. -/
def subMap : PartMap := buildPartMap [partSub] none

/-- A document with a remote base and an unresolved image reference. -/
def cxDoc : List HElem :=
  [⟨"base", [("href", "http://example.com/")], ""⟩,
   ⟨"img", [("src", "missing.png")], ""⟩]

/-- A fully embedded document: only `data:` payloads, a `.` base, and a
plain fragment anchor. -/
def embDoc : List HElem :=
  [⟨"img", [("src", "data:image/png;base64,AA==")], ""⟩,
   ⟨"style", [], "body{background:url(data:image/png;base64,AA==)}"⟩,
   ⟨"base", [("href", ".")], ""⟩,
   ⟨"a", [("href", "#top")], "x"⟩]

/-! ### Basic lemmas about the string primitives -/

theorem dropLit_eq_append {p s r : List Char} (h : dropLit p s = some r) : s = p ++ r := by
  induction p generalizing s with
  | nil =>
    simp only [dropLit, Option.some.injEq] at h
    simp [h]
  | cons c cs ih =>
    cases s with
    | nil => simp [dropLit] at h
    | cons d ds =>
      by_cases hdc : d = c
      · subst hdc
        simp only [dropLit, if_pos rfl] at h
        simpa using congrArg (d :: ·) (ih h)
      · simp [dropLit, hdc] at h

theorem dropLitCI_of_dropLit {p s r : List Char} (h : dropLit p s = some r) :
    dropLitCI p s = some r := by
  induction p generalizing s with
  | nil => simpa [dropLit, dropLitCI] using h
  | cons c cs ih =>
    cases s with
    | nil => simp [dropLit] at h
    | cons d ds =>
      by_cases hdc : d = c
      · subst hdc
        simp [dropLit] at h
        simp [dropLitCI, ih h]
      · simp [dropLit, hdc] at h

theorem startsWithCI_of_startsWithL {p s : String}
    (h : startsWithL p.data s.data = true) : startsWithCI p s = true := by
  unfold startsWithL at h
  unfold startsWithCI
  cases hd : dropLit p.data s.data with
  | none => rw [hd] at h; simp at h
  | some r => rw [dropLitCI_of_dropLit hd]; rfl

theorem indexOfSub_isSome_eq_containsSub {p : List Char} (hp : p ≠ []) (s : List Char) :
    (indexOfSub p s).isSome = containsSub p s := by
  induction s with
  | nil => simp [indexOfSub, containsSub, hp]
  | cons c cs ih =>
    by_cases hs : startsWithL p (c :: cs) = true
    · simp [indexOfSub, containsSub, hs]
    · simp only [indexOfSub, containsSub, hs, Bool.false_or, if_neg hs]
      simpa using ih

/-! ### Lemmas about the part map -/

theorem mapGet_nil (k : String) : mapGet [] k = none := rfl

theorem mapGet_append (m1 m2 : PartMap) (k : String) :
    mapGet (m1 ++ m2) k =
      (match mapGet m1 k with
       | some w => some w
       | none => mapGet m2 k) := by
  induction m1 with
  | nil => simp [mapGet]
  | cons kv m1' ih =>
    by_cases hk : kv.1 = k
    · simp [mapGet, List.find?, hk]
    · simp only [mapGet, List.cons_append, List.find?] at *
      simp [hk] at *
      exact ih

theorem mapGet_addKey (m : PartMap) (k' : String) (v : PValue) (k : String) :
    mapGet (addKey m k' v) k =
      (match mapGet m k with
       | some w => some w
       | none => if (k' = k ∧ k' ≠ "") then some v else none) := by
  unfold addKey
  by_cases hk0 : k' = ""
  · simp only [hk0, if_pos rfl]
    cases h : mapGet m k <;> simp [h]
  · rw [if_neg hk0]
    by_cases hhas : (mapGet m k').isSome
    · rw [if_pos hhas]
      cases h : mapGet m k with
      | some w => simp
      | none =>
        simp only []
        by_cases hkk : k' = k
        · exfalso; rw [hkk, h] at hhas; simp at hhas
        · simp [hkk]
    · rw [if_neg hhas]
      rw [mapGet_append]
      cases h : mapGet m k with
      | some w => simp
      | none =>
        simp only []
        by_cases hkk : k' = k
        · subst hkk; simp [mapGet, List.find?, hk0]
        · simp [mapGet, List.find?, hkk, hk0]

theorem mapGet_foldKeys (ks : List String) (m : PartMap) (v : PValue) (k : String) :
    mapGet (ks.foldl (fun m k' => addKey m k' v) m) k =
      (match mapGet m k with
       | some w => some w
       | none => if k ∈ ks.filter (fun x => x ≠ "") then some v else none) := by
  induction ks generalizing m with
  | nil => cases h : mapGet m k <;> simp [h]
  | cons k0 ks ih =>
    simp only [List.foldl_cons]
    rw [ih (addKey m k0 v)]
    rw [mapGet_addKey]
    cases h : mapGet m k with
    | some w => simp
    | none =>
      simp only []
      by_cases hc : k0 = k ∧ k0 ≠ ""
      · rw [if_pos hc]
        simp only []
        have hmem : k ∈ (k0 :: ks).filter (fun x => x ≠ "") := by
          rcases hc with ⟨h1, h2⟩
          subst h1
          exact List.mem_filter.mpr ⟨List.mem_cons_self _ _, by simpa using h2⟩
        rw [if_pos hmem]
      · rw [if_neg hc]
        simp only []
        have : (k ∈ (k0 :: ks).filter (fun x => x ≠ "")) ↔ (k ∈ ks.filter (fun x => x ≠ "")) := by
          by_cases h0 : k0 = ""
          · simp [List.filter_cons, h0]
          · simp only [List.filter_cons, h0]
            simp only [decide_not]
            rw [if_pos (by simpa using h0)]
            constructor
            · intro hm
              rcases List.mem_cons.mp hm with h1 | h1
              · exact absurd ⟨h1.symm, h0⟩ hc
              · exact h1
            · intro hm; exact List.mem_cons_of_mem _ hm
        rw [if_congr this rfl rfl]

theorem mapGet_buildPartMap_gen (db : Option String) (k : String) :
    ∀ (parts : List Part) (m : PartMap),
      mapGet (parts.foldl
          (fun m p => (partKeys p db).foldl (fun m k' => addKey m k' (mkValue p)) m) m) k =
        (match mapGet m k with
         | some w => some w
         | none => (parts.find? (fun p => decide (k ∈ regKeys p db))).map mkValue) := by
  intro parts
  induction parts with
  | nil => intro m; cases h : mapGet m k <;> simp [h]
  | cons p ps ih =>
    intro m
    simp only [List.foldl_cons]
    rw [ih]
    rw [mapGet_foldKeys]
    cases h : mapGet m k with
    | some w => simp
    | none =>
      simp only []
      by_cases hmem : k ∈ regKeys p db
      · have : k ∈ (partKeys p db).filter (fun x => x ≠ "") := hmem
        rw [if_pos this]
        simp [List.find?, hmem]
      · have : ¬ k ∈ (partKeys p db).filter (fun x => x ≠ "") := hmem
        rw [if_neg this]
        simp [List.find?, hmem]

/-- The part map sends every key to the value of the first part that
registers it. -/
theorem mapGet_buildPartMap (parts : List Part) (db : Option String) (k : String) :
    mapGet (buildPartMap parts db) k =
      (parts.find? (fun p => decide (k ∈ regKeys p db))).map mkValue := by
  unfold buildPartMap
  rw [mapGet_buildPartMap_gen]
  rfl

theorem find?_append_of_none {α : Type} {pred : α → Bool} {pre : List α}
    (h : ∀ q ∈ pre, pred q = false) (rest : List α) :
    (pre ++ rest).find? pred = rest.find? pred := by
  induction pre with
  | nil => simp
  | cons q qs ih =>
    simp only [List.cons_append, List.find?]
    rw [h q (List.mem_cons_self q qs)]
    exact ih (fun x hx => h x (List.mem_cons_of_mem _ hx))

/-! ### Lemmas about the root-selection sort -/

theorem head?_insDesc (x : Part) (acc : List Part) :
    (insDesc x acc).head? =
      some (match acc.head? with
        | none => x
        | some y => if x.buf.length ≤ y.buf.length then y else x) := by
  cases acc with
  | nil => rfl
  | cons y ys =>
    by_cases h : x.buf.length ≤ y.buf.length <;> simp [insDesc, h]

theorem head?_sortFoldl (l : List Part) :
    ∀ acc : List Part, (l.foldl (fun a x => insDesc x a) acc).head? = l.foldl fmStep acc.head? := by
  induction l with
  | nil => intro acc; rfl
  | cons x xs ih =>
    intro acc
    simp only [List.foldl_cons]
    rw [ih (insDesc x acc), head?_insDesc]
    rfl

theorem fmFold_firstLargest (l : List Part) :
    ∀ b : Part, ∃ r, l.foldl fmStep (some b) = some r ∧ IsFirstLargest (b :: l) r := by
  induction l with
  | nil =>
    intro b
    refine ⟨b, rfl, [], [], rfl, ?_, by simp⟩
    intro q hq
    have hqb : q = b := by simpa using hq
    subst hqb
    exact le_refl _
  | cons x xs ih =>
    intro b
    simp only [List.foldl_cons]
    by_cases h : x.buf.length ≤ b.buf.length
    · obtain ⟨r, hr, l1, l2, hdec, hall, hstrict⟩ := ih b
      refine ⟨r, ?_, ?_⟩
      · rw [show fmStep (some b) x = some b from by simp [fmStep, h]]
        exact hr
      · cases l1 with
        | nil =>
          simp only [List.nil_append] at hdec
          injection hdec with hrb hxs
          refine ⟨[], x :: xs, by simp [hrb], ?_, by simp⟩
          intro q hq
          rcases List.mem_cons.mp hq with h1 | h1
          · subst h1; exact le_of_eq (by rw [hrb])
          · rcases List.mem_cons.mp h1 with h2 | h2
            · subst h2; exact le_trans h (le_of_eq (by rw [hrb]))
            · exact hall q (List.mem_cons_of_mem _ h2)
        | cons b' l1' =>
          simp only [List.cons_append] at hdec
          injection hdec with hb hxs
          have hblt : b.buf.length < r.buf.length := by
            apply hstrict
            rw [hb]
            exact List.mem_cons_self _ _
          refine ⟨b :: x :: l1', l2, by simp [hxs], ?_, ?_⟩
          · intro q hq
            rcases List.mem_cons.mp hq with h1 | h1
            · subst h1; exact le_of_lt hblt
            · rcases List.mem_cons.mp h1 with h2 | h2
              · subst h2; exact le_trans h (le_of_lt hblt)
              · exact hall q (List.mem_cons_of_mem _ h2)
          · intro q hq
            rcases List.mem_cons.mp hq with h1 | h1
            · subst h1; exact hblt
            · rcases List.mem_cons.mp h1 with h2 | h2
              · subst h2; exact lt_of_le_of_lt h hblt
              · exact hstrict q (List.mem_cons_of_mem _ h2)
    · have hbx : b.buf.length < x.buf.length := Nat.lt_of_not_le h
      obtain ⟨r, hr, l1, l2, hdec, hall, hstrict⟩ := ih x
      have hxr : x.buf.length ≤ r.buf.length := hall x (List.mem_cons_self _ _)
      refine ⟨r, ?_, ?_⟩
      · rw [show fmStep (some b) x = some x from by simp [fmStep, h]]
        exact hr
      · refine ⟨b :: l1, l2, ?_, ?_, ?_⟩
        · simp only [List.cons_append]
          rw [hdec]
        · intro q hq
          rcases List.mem_cons.mp hq with h1 | h1
          · subst h1; exact le_trans (le_of_lt hbx) hxr
          · exact hall q h1
        · intro q hq
          rcases List.mem_cons.mp hq with h1 | h1
          · subst h1; exact lt_of_lt_of_le hbx hxr
          · exact hstrict q h1

theorem headD_of_head? {α : Type} {l : List α} {a d : α} (h : l.head? = some a) :
    l.headD d = a := by
  cases l with
  | nil => simp at h
  | cons x xs =>
    simp only [List.head?_cons, Option.some.injEq] at h
    simp [List.headD, h]

/-! ### Length lemmas for the scanners -/

theorem length_dropWhileLe (p : Char → Bool) (l : List Char) :
    (l.dropWhile p).length ≤ l.length := by
  induction l with
  | nil => simp
  | cons c cs ih =>
    by_cases h : p c
    · simp only [List.dropWhile, h]
      exact Nat.le_trans ih (Nat.le_succ _)
    · simp [List.dropWhile, h]

theorem drop_length_takeWhile (p : Char → Bool) (l : List Char) :
    l.drop (l.takeWhile p).length = l.dropWhile p := by
  induction l with
  | nil => simp
  | cons c cs ih =>
    by_cases h : p c
    · simp [List.takeWhile, List.dropWhile, h, ih]
    · simp [List.takeWhile, List.dropWhile, h]

theorem dropLitCI_length {p s r : List Char} (h : dropLitCI p s = some r) :
    s.length = p.length + r.length := by
  induction p generalizing s with
  | nil =>
    simp only [dropLitCI, Option.some.injEq] at h
    simp [← h]
  | cons c cs ih =>
    cases s with
    | nil => simp [dropLitCI] at h
    | cons d ds =>
      by_cases hdc : lowerChar d = lowerChar c
      · simp only [dropLitCI, if_pos hdc] at h
        have := ih h
        simp [List.length_cons, this]
        omega
      · simp [dropLitCI, hdc] at h

theorem dropLitCI_eq_drop {p s r : List Char} (h : dropLitCI p s = some r) :
    r = s.drop p.length := by
  induction p generalizing s with
  | nil => simpa [dropLitCI] using h.symm
  | cons c cs ih =>
    cases s with
    | nil => simp [dropLitCI] at h
    | cons d ds =>
      by_cases hdc : lowerChar d = lowerChar c
      · simp only [dropLitCI, if_pos hdc] at h
        simpa using ih h
      · simp [dropLitCI, hdc] at h

theorem finishImport_length {cap : String} {s6 : List Char} {cap' : String} {s8 : List Char}
    (h : finishImport cap s6 = some (cap', s8)) : s8.length ≤ s6.length := by
  unfold finishImport at h
  have h1 : ((s6.dropWhile isSpaceJs).dropWhile (fun c => !(c = ';'))).length ≤ s6.length :=
    Nat.le_trans (length_dropWhileLe _ _) (length_dropWhileLe _ _)
  cases hdrop : (s6.dropWhile isSpaceJs).dropWhile (fun c => !(c = ';')) with
  | nil => rw [hdrop] at h; simp at h
  | cons c rest =>
    rw [hdrop] at h
    by_cases hc : c = ';'
    · subst hc
      simp only [Option.some.injEq, Prod.mk.injEq] at h
      rw [hdrop] at h1
      simp only [List.length_cons] at h1
      rw [← h.2]
      omega
    · exfalso
      have : (match c :: rest with
        | ';' :: s8 => some (cap, s8)
        | _ => none) = (none : Option (String × List Char)) := by
        cases c with
        | mk v hv => simp [hc]
      rw [this] at h
      simp at h

theorem importAfterKeyword_length {s s2 : List Char}
    (h : importAfterKeyword s = some s2) : s2.length < s.length := by
  unfold importAfterKeyword at h
  cases h7 : dropLitCI "@import".data s with
  | none => rw [h7] at h; simp at h
  | some s1 =>
    rw [h7] at h
    have hlen : s.length = 7 + s1.length := dropLitCI_length h7
    cases s1 with
    | nil => simp at h
    | cons c0 rest =>
      by_cases hsp : isSpaceJs c0 = true
      · simp only [if_pos hsp, Option.some.injEq] at h
        have : ((c0 :: rest).dropWhile isSpaceJs).length ≤ (c0 :: rest).length :=
          length_dropWhileLe _ _
        rw [← h] at *
        omega
      · simp [hsp] at h

theorem importTargetUrl_length {s3 : List Char} {cap : String} {s6 : List Char}
    (h : importTargetUrl s3 = some (cap, s6)) : s6.length ≤ s3.length := by
  unfold importTargetUrl at h
  have hc1 : (((s3.dropWhile isSpaceJs).dropWhile
      (fun c => !(isSpaceJs c || c = ')'))).dropWhile isSpaceJs).length ≤ s3.length :=
    Nat.le_trans (length_dropWhileLe _ _)
      (Nat.le_trans (length_dropWhileLe _ _) (length_dropWhileLe _ _))
  split at h
  · simp at h
  · cases hdrop : ((s3.dropWhile isSpaceJs).dropWhile
        (fun c => !(isSpaceJs c || c = ')'))).dropWhile isSpaceJs with
    | nil => rw [hdrop] at h; simp at h
    | cons c rest =>
      rw [hdrop] at h
      rw [hdrop] at hc1
      by_cases hcp : c = ')'
      · subst hcp
        simp only [Option.some.injEq, Prod.mk.injEq] at h
        rw [← h.2]
        simp only [List.length_cons] at hc1
        omega
      · exfalso
        have : (match c :: rest with
          | ')' :: s6 => some
              ((⟨(s3.dropWhile isSpaceJs).takeWhile
                  (fun c => !(isSpaceJs c || c = ')'))⟩ : String), s6)
          | _ => none) = (none : Option (String × List Char)) := by
          cases c with
          | mk v hv => simp [hcp]
        rw [this] at h
        simp at h

theorem importTargetQuote_length {s2 : List Char} {cap : String} {s6 : List Char}
    (h : importTargetQuote s2 = some (cap, s6)) : s6.length ≤ s2.length := by
  cases s2 with
  | nil => simp [importTargetQuote] at h
  | cons q s3 =>
    simp only [importTargetQuote] at h
    by_cases hq : isQuote q = true
    · rw [if_pos hq] at h
      cases hdrop : s3.dropWhile (fun c => !(c = q || isJsLineBreak c)) with
      | nil => rw [hdrop] at h; simp at h
      | cons c s4 =>
        rw [hdrop] at h
        have hc2 : (c :: s4).length ≤ s3.length := by
          calc (c :: s4).length
              = (s3.dropWhile (fun c => !(c = q || isJsLineBreak c))).length := by rw [hdrop]
            _ ≤ s3.length := length_dropWhileLe _ _
        by_cases hcq : c = q
        · subst hcq
          simp at h
          rw [← h.2]
          simp only [List.length_cons] at *
          omega
        · exfalso
          have hnone : (match c :: s4 with
            | c :: s4 =>
              if c = q then
                some ((⟨s3.takeWhile (fun c => !(c = q || isJsLineBreak c))⟩ : String), s4)
              else none
            | [] => none) = (none : Option (String × List Char)) := by
            simp [hcq]
          rw [hnone] at h
          simp at h
    · rw [if_neg hq] at h
      simp at h

theorem importTarget_length {s2 : List Char} {cap : String} {s6 : List Char}
    (h : importTarget s2 = some (cap, s6)) : s6.length ≤ s2.length := by
  unfold importTarget at h
  cases h4 : dropLitCI "url(".data s2 with
  | some s3 =>
    rw [h4] at h
    have hlen : s2.length = 4 + s3.length := dropLitCI_length h4
    have := importTargetUrl_length h
    omega
  | none =>
    rw [h4] at h
    exact importTargetQuote_length h

theorem matchImportAt_suffix_lt {s : List Char} {cap : String} {suf : List Char}
    (h : matchImportAt s = some (cap, suf)) : suf.length < s.length := by
  unfold matchImportAt at h
  rw [Option.bind_eq_some] at h
  obtain ⟨s2, h1, h⟩ := h
  rw [Option.bind_eq_some] at h
  obtain ⟨⟨cap0, s6⟩, h2, h3⟩ := h
  have l1 := importAfterKeyword_length h1
  have l2 := importTarget_length h2
  have l3 : suf.length ≤ s6.length := finishImport_length h3
  omega

theorem findImport_suffix_lt {s pre : List Char} {cap : String} {suf : List Char}
    (h : findImport s = some (pre, cap, suf)) : suf.length < s.length := by
  induction s generalizing pre with
  | nil => simp [findImport] at h
  | cons c cs ih =>
    simp only [findImport] at h
    split at h
    next cap0 suf0 hm =>
      simp only [Option.some.injEq, Prod.mk.injEq] at h
      obtain ⟨_, _, h3⟩ := h
      subst h3
      exact matchImportAt_suffix_lt hm
    next hm =>
      cases hf : findImport cs with
      | none => rw [hf] at h; simp at h
      | some pr =>
        rw [hf] at h
        obtain ⟨pre0, cap0, suf0⟩ := pr
        simp only [Option.map_some', Option.some.injEq, Prod.mk.injEq] at h
        obtain ⟨hpre, hcap, hsuf⟩ := h
        subst hcap
        subst hsuf
        have := ih hf
        simp only [List.length_cons]
        omega

/-! ### The css-tree model round-trips -/

theorem cssGenerate_cons (it : CssItem) (items : List CssItem) :
    cssGenerate (it :: items) =
      (match it with
       | .raw s => s
       | .url o v c => o ++ v ++ c) ++ cssGenerate items := by
  cases it <;> simp [cssGenerate]

theorem cssGenerate_cssParseFuel : ∀ (n : Nat) (s : List Char), s.length < n →
    cssGenerate (cssParseFuel n s) = s := by
  intro n
  induction n with
  | zero => intro s h; exact absurd h (Nat.not_lt_zero _)
  | succ n ih =>
    intro s h
    cases s with
    | nil => rfl
    | cons c cs =>
      simp only [cssParseFuel]
      cases h4 : dropLitCI "url(".data (c :: cs) with
      | none =>
        simp only []
        rw [cssGenerate_cons]
        simp only []
        rw [ih cs (by simpa [List.length_cons] using Nat.lt_of_succ_lt_succ h)]
        rfl
      | some afterOpen =>
        simp only []
        have hlen : (c :: cs).length = 4 + afterOpen.length := dropLitCI_length h4
        have hdropeq : afterOpen = (c :: cs).drop 4 := dropLitCI_eq_drop h4
        cases hdw : afterOpen.dropWhile (fun d => !(d = ')')) with
        | nil =>
          rw [cssGenerate_cons]
          simp [cssGenerate]
        | cons c2 r2 =>
          by_cases hc2 : c2 = ')'
          · subst hc2
            simp only []
            rw [cssGenerate_cons]
            simp only []
            have hr2 : r2.length + 1 ≤ afterOpen.length := by
              have := length_dropWhileLe (fun d => !(d = ')')) afterOpen
              rw [hdw] at this
              simpa using this
            rw [ih r2 (by simp only [List.length_cons] at h hlen; omega)]
            have hsplit : afterOpen =
                afterOpen.takeWhile (fun d => !(d = ')')) ++ (')' :: r2) := by
              rw [← hdw]
              exact (List.takeWhile_append_dropWhile _ _).symm
            have hfull : (c :: cs) =
                (c :: cs).take 4 ++
                  (afterOpen.takeWhile (fun d => !(d = ')')) ++ (')' :: r2)) := by
              conv_lhs => rw [← List.take_append_drop 4 (c :: cs)]
              rw [← hdropeq, ← hsplit]
            conv_rhs => rw [hfull]
            simp [List.append_assoc]
          · split
            next r2' heq =>
              exfalso
              injection heq with h1 _
              exact hc2 h1
            next =>
              rw [cssGenerate_cons]
              simp [cssGenerate]

theorem cssGenerate_cssParse (s : String) : cssGenerate (cssParse s) = s.data :=
  cssGenerate_cssParseFuel _ _ (Nat.lt_succ_self _)

theorem inlineCssUrls_congr_id {css : String} {base : Option String} {map : PartMap}
    (h : ∀ it ∈ cssParse css, rewriteUrlItem base map it = it) :
    inlineCssUrlsWithMap css base map = css := by
  unfold inlineCssUrlsWithMap
  by_cases hc : css = ""
  · simp [hc]
  · rw [if_neg hc]
    have hmap : (cssParse css).map (rewriteUrlItem base map) = cssParse css := by
      calc (cssParse css).map (rewriteUrlItem base map)
          = (cssParse css).map id := List.map_congr_left h
        _ = cssParse css := List.map_id _
    rw [hmap, cssGenerate_cssParse]

theorem cssUrlLookup_nil (raw : String) (base : Option String) :
    cssUrlLookup raw base [] = none := by
  simp [cssUrlLookup, mapGet]

theorem rewriteUrlItem_nil (base : Option String) (it : CssItem) :
    rewriteUrlItem base [] it = it := by
  cases it with
  | raw s => rfl
  | url o v c => simp [rewriteUrlItem, cssUrlLookup_nil]

theorem inlineCssUrls_nil (css : String) (base : Option String) :
    inlineCssUrlsWithMap css base [] = css :=
  inlineCssUrls_congr_id (fun it _ => rewriteUrlItem_nil base it)

/-! ### The import inliner on an empty map and on import-free text -/

theorem importResolve_nil (cap : String) (base : Option String) :
    importResolve cap base [] = none := by
  simp [importResolve, mapGet]

theorem impGo_nil_eq_dropGo (base : Option String) :
    ∀ (n : Nat) (s : List Char), s.length < n → impGo [] n s base = some (dropGo n s) := by
  intro n
  induction n with
  | zero => intro s h; exact absurd h (Nat.not_lt_zero _)
  | succ n ih =>
    intro s h
    cases hf : findImport s with
    | none => simp [impGo, dropGo, hf]
    | some pr =>
      obtain ⟨pre, cap, suf⟩ := pr
      have hsuf := findImport_suffix_lt hf
      have hrec := ih suf (by omega)
      simp [impGo, dropGo, hf, importResolve_nil, hrec]

theorem dropGo_fuelInv :
    ∀ (m n : Nat) (s : List Char), s.length < m → s.length < n → dropGo m s = dropGo n s := by
  intro m
  induction m with
  | zero => intro n s h _; exact absurd h (Nat.not_lt_zero _)
  | succ m ih =>
    intro n s hm hn
    cases n with
    | zero => exact absurd hn (Nat.not_lt_zero _)
    | succ n =>
      cases hf : findImport s with
      | none => simp [dropGo, hf]
      | some pr =>
        obtain ⟨pre, cap, suf⟩ := pr
        have hsuf := findImport_suffix_lt hf
        simp only [dropGo, hf]
        rw [ih n suf (by omega) (by omega)]

theorem inlineCssImportsFuel_nil (fuel : Nat) (css : String) (base : Option String)
    (h : css.data.length < fuel) :
    inlineCssImportsFuel fuel css base [] = some (dropImportsAll css) := by
  unfold inlineCssImportsFuel dropImportsAll
  rw [impGo_nil_eq_dropGo base fuel css.data h]
  rw [dropGo_fuelInv fuel (css.data.length + 1) css.data h (Nat.lt_succ_self _)]
  rfl

theorem inlineCssImportsFuel_noMatch (fuel : Nat) (css : String) (base : Option String)
    (map : PartMap) (hm : findImport css.data = none) (hf : 1 ≤ fuel) :
    inlineCssImportsFuel fuel css base map = some css := by
  cases fuel with
  | zero => exact absurd hf (by omega)
  | succ n => simp [inlineCssImportsFuel, impGo, hm]

/-! ### Lemmas about the HTML passes -/

theorem setAttrList_self :
    ∀ (attrs : List (String × String)) (k v : String),
      (List.find? (fun p => p.1 = k) attrs).map (·.2) = some v → setAttrList attrs k v = attrs := by
  intro attrs
  induction attrs with
  | nil => intro k v h; simp [List.find?] at h
  | cons kv rest ih =>
    intro k v h
    obtain ⟨k0, v0⟩ := kv
    by_cases hk : k0 = k
    · subst hk
      simp [List.find?] at h
      simp [setAttrList, h]
    · simp only [List.find?] at h
      rw [show (decide (k0 = k)) = false by simp [hk]] at h
      simp only [setAttrList, if_neg hk]
      rw [ih k v h]

theorem setAttr_self {e : HElem} {k v : String} (h : getAttr e k = some v) :
    setAttr e k v = e := by
  unfold setAttr
  rw [setAttrList_self e.attrs k v h]

theorem hitChain5_nil (r : String) (db : Option String) : hitChain5 r db [] = none := by
  simp [hitChain5, mapGet]

theorem hitChain7_nil (r : String) (db : Option String) : hitChain7 r db [] = none := by
  simp only [hitChain7, mapGet, List.find?, Option.map_none', Option.none_orElse, ite_self]
  split <;> rfl

theorem passStylesheets_nilMap (fuel : Nat) (db : Option String) :
    ∀ l : List HElem, passStylesheets fuel db [] l =
      some (l.filterMap (fun e =>
        if (isStylesheetLink e && startsWithCI "cid!" (weirdFix ((getAttr e "href").getD "")))
        then none else some e)) := by
  intro l
  induction l with
  | nil => rfl
  | cons e rest ih =>
    by_cases hs : isStylesheetLink e = true
    · simp only [passStylesheets, hs, if_pos rfl, hitChain5_nil, List.filterMap_cons]
      by_cases hc : startsWithCI "cid!" (weirdFix ((getAttr e "href").getD "")) = true
      · simp [hs, hc, ih]
      · simp [hs, hc, ih]
    · simp [passStylesheets, hs, ih]

theorem passStyleElems_nilMap (fuel : Nat) (db : Option String) :
    ∀ l : List HElem, (∀ e ∈ l, e.inner.data.length < fuel) →
      passStyleElems fuel db [] l =
        some (l.map (fun e =>
          if e.tag = "style" then { e with inner := dropImportsAll e.inner } else e)) := by
  intro l
  induction l with
  | nil => intro _; rfl
  | cons e rest ih =>
    intro hb
    have hrec := ih (fun x hx => hb x (List.mem_cons_of_mem _ hx))
    by_cases hs : e.tag = "style"
    · have himp := inlineCssImportsFuel_nil fuel e.inner db
        (hb e (List.mem_cons_self _ _))
      simp [passStyleElems, hs, himp, hrec, inlineCssUrls_nil]
    · simp [passStyleElems, hs, hrec]

theorem passStyleAttrs_nilMap (db : Option String) :
    ∀ l : List HElem, passStyleAttrs db [] l = l := by
  intro l
  unfold passStyleAttrs
  have : ∀ e ∈ l, (match getAttr e "style" with
      | some css => if css = "" then e
          else setAttr e "style" (inlineCssUrlsWithMap css db [])
      | none => e) = e := by
    intro e _
    cases hst : getAttr e "style" with
    | none => rfl
    | some css =>
      by_cases hempty : css = ""
      · simp [hempty]
      · simp only [if_neg hempty]
        rw [inlineCssUrls_nil]
        exact setAttr_self hst
  calc l.map _ = l.map id := List.map_congr_left this
    _ = l := List.map_id _

theorem passImgs_nilMap (db : Option String) : ∀ l : List HElem, passImgs db [] l = l := by
  intro l
  unfold passImgs
  have : ∀ e ∈ l, (if (e.tag = "img" && (getAttr e "src").isSome) = true then
      match hitChain7 (weirdFix ((getAttr e "src").getD "")) db [] with
      | some hit => setAttr e "src" hit.dataURI
      | none => e
    else e) = e := by
    intro e _
    by_cases hc : (e.tag = "img" && (getAttr e "src").isSome) = true
    · simp [hc, hitChain7_nil]
    · simp [hc]
  calc l.map _ = l.map id := List.map_congr_left this
    _ = l := List.map_id _

theorem passScripts_nilMap (db : Option String) : ∀ l : List HElem, passScripts db [] l = l := by
  intro l
  unfold passScripts
  have : ∀ e ∈ l, (if (e.tag = "script" && (getAttr e "src").isSome) = true then
      match hitChain7 (weirdFix ((getAttr e "src").getD "")) db [] with
      | some hit => { removeAttr e "src" with inner := hitText hit }
      | none => e
    else e) = e := by
    intro e _
    by_cases hc : (e.tag = "script" && (getAttr e "src").isSome) = true
    · simp [hc, hitChain7_nil]
    · simp [hc]
  calc l.map _ = l.map id := List.map_congr_left this
    _ = l := List.map_id _

theorem passIcons_nilMap (db : Option String) : ∀ l : List HElem, passIcons db [] l = l := by
  intro l
  unfold passIcons
  have : ∀ e ∈ l, (if isIconLink e = true then
      match hitChain7 (weirdFix ((getAttr e "href").getD "")) db [] with
      | some hit => setAttr e "href" hit.dataURI
      | none => e
    else e) = e := by
    intro e _
    by_cases hc : isIconLink e = true
    · simp [hc, hitChain7_nil]
    · simp [hc]
  calc l.map _ = l.map id := List.map_congr_left this
    _ = l := List.map_id _

theorem passACids_nilMap : ∀ l : List HElem, passACids [] l = l := by
  intro l
  unfold passACids
  have : ∀ e ∈ l, (match getAttr e "href" with
      | some h =>
        if (e.tag = "a" && (startsWithS "cid:" h || startsWithS "cid!" h)) = true then
          let cid := if startsWithS "cid!" h then extractCidFromWeird h
            else some (if startsWithCI "cid:" h then (⟨h.data.drop 4⟩ : String) else h)
          match mapGet [] ("cid:" ++ (cid.getD "null")) <|>
            (match cid with | some c => mapGet [] c | none => none) with
          | some v => setAttr e "href" v.dataURI
          | none => e
        else e
      | none => e) = e := by
    intro e _
    cases hh : getAttr e "href" with
    | none => rfl
    | some h =>
      by_cases hc : (e.tag = "a" && (startsWithS "cid:" h || startsWithS "cid!" h)) = true
      · simp only [if_pos hc]
        have h2 : (match (if startsWithS "cid!" h then extractCidFromWeird h
            else some (if startsWithCI "cid:" h then (⟨h.data.drop 4⟩ : String) else h)) with
          | some c => mapGet [] c
          | none => none) = (none : Option PValue) := by
          split <;> rfl
        rw [h2]
        rfl
      · simp [hc]
  calc l.map _ = l.map id := List.map_congr_left this
    _ = l := List.map_id _

theorem mem_passBase {l : List HElem} {e' : HElem} (h : e' ∈ passBase l) :
    ∃ e ∈ l, e'.inner = e.inner := by
  induction l with
  | nil => simp [passBase] at h
  | cons e rest ih =>
    by_cases hc : (e.tag = "base" && (getAttr e "href").isSome) = true
    · simp only [passBase, hc, if_pos rfl] at h
      rcases List.mem_cons.mp h with h1 | h1
      · exact ⟨e, List.mem_cons_self _ _, by rw [h1]; rfl⟩
      · exact ⟨e', List.mem_cons_of_mem _ h1, rfl⟩
    · simp only [passBase, hc] at h
      rw [if_neg (by simp [hc])] at h
      rcases List.mem_cons.mp h with h1 | h1
      · exact ⟨e, List.mem_cons_self _ _, by rw [h1]⟩
      · obtain ⟨e0, he0, hinner⟩ := ih h1
        exact ⟨e0, List.mem_cons_of_mem _ he0, hinner⟩

theorem mem_filterMap_keepIf {l : List HElem} {e' : HElem} {cond : HElem → Bool}
    (h : e' ∈ l.filterMap (fun e => if cond e then none else some e)) : e' ∈ l := by
  rcases List.mem_filterMap.mp h with ⟨a, ha, hfa⟩
  by_cases hc : cond a = true
  · rw [if_pos hc] at hfa; simp at hfa
  · rw [if_neg hc] at hfa
    simp only [Option.some.injEq] at hfa
    rw [← hfa]
    exact ha

/-- Composing the dropped-stylesheet pass, the style-rewrite map and the
prefetch filter (all over an empty part map) yields the `stripHintsStep`
filterMap. -/
theorem stripHints_compose : ∀ l : List HElem,
    (((l.filterMap (fun e =>
        if (isStylesheetLink e && startsWithCI "cid!" (weirdFix ((getAttr e "href").getD "")))
        then none else some e)).map (fun e =>
          if e.tag = "style" then { e with inner := dropImportsAll e.inner } else e)).filter
      (fun e => !isPrefetchLink e)) = l.filterMap stripHintsStep := by
  intro l
  induction l with
  | nil => rfl
  | cons e rest ih =>
    simp only [List.filterMap_cons]
    by_cases h2 : (isStylesheetLink e &&
        startsWithCI "cid!" (weirdFix ((getAttr e "href").getD ""))) = true
    · rw [if_pos h2]
      have hstep : stripHintsStep e = none := by
        unfold stripHintsStep
        by_cases hp : isPrefetchLink e = true
        · rw [if_pos hp]
        · rw [if_neg hp, if_pos h2]
      rw [hstep, ih]
    · rw [if_neg h2]
      simp only [List.map_cons, List.filter_cons]
      by_cases hp : isPrefetchLink e = true
      · have htag : e.tag = "link" := by
          unfold isPrefetchLink at hp
          exact of_decide_eq_true (Bool.and_elim_left hp)
        have hf3 : (if e.tag = "style" then
            { e with inner := dropImportsAll e.inner } else e) = e := by
          rw [if_neg (by rw [htag]; decide)]
        rw [hf3]
        simp only [hp, Bool.not_true]
        have hstep : stripHintsStep e = none := by
          unfold stripHintsStep
          rw [if_pos hp]
        rw [hstep, ih]
        rfl
      · have hpf3 : isPrefetchLink (if e.tag = "style" then
            { e with inner := dropImportsAll e.inner } else e) = false := by
          by_cases hs : e.tag = "style"
          · rw [if_pos hs]
            simp only [isPrefetchLink, getAttr] at *
            simpa using hp
          · rw [if_neg hs]
            simpa using hp
        rw [hpf3]
        simp only [Bool.not_false, if_pos rfl]
        have hstep : stripHintsStep e =
            some (if e.tag = "style" then { e with inner := dropImportsAll e.inner } else e) := by
          unfold stripHintsStep
          rw [if_neg hp, if_neg h2]
          by_cases hs : e.tag = "style"
          · rw [if_pos hs, if_pos hs]
          · rw [if_neg hs, if_neg hs]
        rw [hstep, ih]
        simp

/-- `rewriteHtmlWithMap` over an empty part map is exactly the hint-stripping
normal form: base href forced, unresolved `cid!` stylesheet links and prefetch
links removed, recognised imports dropped from style texts, everything else
untouched. -/
theorem rewriteHtml_nilMap (fuel : Nat) (doc : List HElem) (db : Option String)
    (hb : ∀ e ∈ doc, e.inner.data.length < fuel) :
    rewriteHtmlFuel fuel doc db [] = some (stripHints doc) := by
  unfold rewriteHtmlFuel stripHints
  rw [passStylesheets_nilMap]
  rw [Option.some_bind]
  have hb2 : ∀ e ∈ ((passBase doc).filterMap (fun e =>
      if (isStylesheetLink e && startsWithCI "cid!" (weirdFix ((getAttr e "href").getD "")))
      then none else some e)), e.inner.data.length < fuel := by
    intro e he
    obtain ⟨e0, he0, hinner⟩ := mem_passBase (mem_filterMap_keepIf he)
    rw [hinner]
    exact hb e0 he0
  rw [passStyleElems_nilMap fuel db _ hb2]
  rw [Option.some_bind]
  rw [passStyleAttrs_nilMap, passImgs_nilMap, passScripts_nilMap, passIcons_nilMap,
    passACids_nilMap]
  rw [stripHints_compose]

/-! ### Identity of the rewriter on fully embedded documents -/

theorem dropLit_append (p1 p2 s : List Char) :
    dropLit (p1 ++ p2) (p1 ++ s) = dropLit p2 s := by
  induction p1 with
  | nil => rfl
  | cons c cs ih => simp [dropLit, ih]

theorem mapGet_none_of_clean {m : PartMap} {k : String} (hmc : mapClean m = true)
    (hk : startsWithL "data:".data k.data = true ∨
      startsWithL "cid:data:".data k.data = true ∨ k = "cid:" ∨ k = "") :
    mapGet m k = none := by
  induction m with
  | nil => rfl
  | cons kv rest ih =>
    have hall : mapClean (kv :: rest) = true := hmc
    rw [mapClean, List.all_cons, Bool.and_eq_true] at hall
    obtain ⟨hkv, hrest⟩ := hall
    simp only [Bool.and_eq_true, Bool.not_eq_true', decide_eq_true_eq] at hkv
    obtain ⟨⟨⟨ha, hb⟩, hc⟩, hd⟩ := hkv
    by_cases hkk : kv.1 = k
    · exfalso
      rcases hk with h | h | h | h
      · rw [hkk] at ha; rw [h] at ha; simp at ha
      · rw [hkk] at hb; rw [h] at hb; simp at hb
      · exact hc (hkk.trans h)
      · exact hd (hkk.trans h)
    · have hstep : mapGet (kv :: rest) k = mapGet rest k := by
        simp [mapGet, List.find?, hkk]
      rw [hstep]
      exact ih hrest

/-- Decomposition of a well-behaved data reference. -/
theorem dataCleanRef_spec {r : String} (h : dataCleanRef r = true) :
    (∃ rest, r.data = 'd' :: 'a' :: 't' :: 'a' :: ':' :: rest) ∧ normKey r = r := by
  simp only [dataCleanRef, Bool.and_eq_true, decide_eq_true_eq] at h
  obtain ⟨h1, h2⟩ := h
  refine ⟨?_, h2⟩
  unfold startsWithL at h1
  cases hd : dropLit "data:".data r.data with
  | none => rw [hd] at h1; simp at h1
  | some t =>
    refine ⟨t, ?_⟩
    have := dropLit_eq_append hd
    simpa using this

theorem weirdTest_of_data {r : String} {rest : List Char}
    (hd : r.data = 'd' :: 'a' :: 't' :: 'a' :: ':' :: rest) : weirdTest r = false := by
  unfold weirdTest
  have : dropLitCI "http".data r.data = none := by
    rw [hd]
    simp [dropLitCI, show lowerChar 'd' = 'd' from by decide,
      show lowerChar 'h' = 'h' from by decide]
  rw [this]

theorem startsWithS_cid_of_data {r : String} {rest : List Char}
    (hd : r.data = 'd' :: 'a' :: 't' :: 'a' :: ':' :: rest) :
    startsWithS "cid:" r = false ∧ startsWithS "cid!" r = false ∧
      extractCidFromWeird r = none := by
  refine ⟨?_, ?_, ?_⟩
  · unfold startsWithS startsWithL
    rw [hd]
    simp [dropLit]
  · unfold startsWithS startsWithL
    rw [hd]
    simp [dropLit]
  · unfold extractCidFromWeird
    have : dropLitCI "cid!".data r.data = none := by
      rw [hd]
      simp [dropLitCI, show lowerChar 'd' = 'd' from by decide,
        show lowerChar 'c' = 'c' from by decide]
    rw [this]

theorem resolveAgainst_data {r : String} {rest : List Char} (db : Option String)
    (hd : r.data = 'd' :: 'a' :: 't' :: 'a' :: ':' :: rest) : resolveAgainst db r = r := by
  unfold resolveAgainst
  have hne : ¬ r = "" := by
    intro hcon
    rw [hcon] at hd
    simp at hd
  rw [if_neg hne]
  have hci : startsWithCI "data:" r = true := by
    unfold startsWithCI
    rw [hd]
    simp [dropLitCI, show lowerChar 'd' = 'd' from by decide,
      show lowerChar 'a' = 'a' from by decide, show lowerChar 't' = 't' from by decide,
      show lowerChar ':' = ':' from by decide]
  rw [if_pos (Or.inl hci)]

theorem hitChain7_dataClean {r : String} (db : Option String) (m : PartMap)
    (hdc : dataCleanRef r = true) (hmc : mapClean m = true) :
    weirdFix r = r ∧ hitChain7 r db m = none := by
  obtain ⟨⟨rest, hd⟩, hnk⟩ := dataCleanRef_spec hdc
  have hw : weirdFix r = r := by
    unfold weirdFix
    rw [weirdTest_of_data hd]
    rfl
  obtain ⟨hc1, hc2, hc3⟩ := startsWithS_cid_of_data hd
  have hdataL : startsWithL "data:".data r.data = true := by
    simp only [dataCleanRef, Bool.and_eq_true] at hdc
    exact hdc.1
  have hget_r : mapGet m r = none := mapGet_none_of_clean hmc (Or.inl hdataL)
  have hget_cid : mapGet m ("cid:" ++ r) = none := by
    apply mapGet_none_of_clean hmc
    right; left
    have hdataApp : ("cid:" ++ r).data = "cid:".data ++ r.data := String.data_append _ _
    unfold startsWithL
    rw [hdataApp, show "cid:data:".data = "cid:".data ++ "data:".data from rfl]
    unfold startsWithL at hdataL
    cases hdl : dropLit "data:".data r.data with
    | none => rw [hdl] at hdataL; simp at hdataL
    | some t => rw [dropLit_append, hdl]; rfl
  refine ⟨hw, ?_⟩
  unfold hitChain7
  have hjs : jsDropCid r = r := by
    unfold jsDropCid
    rw [hc1]
    rfl
  rw [resolveAgainst_data db hd]
  simp [hnk, hget_r, hget_cid, hjs, hc2, hc3]

theorem inlineCssUrls_allData {css : String} {base : Option String} {map : PartMap}
    (h : cssAllData css = true) : inlineCssUrlsWithMap css base map = css := by
  apply inlineCssUrls_congr_id
  intro it hit
  have := (List.all_eq_true.mp h) it hit
  cases it with
  | raw s => rfl
  | url o v c =>
    simp only [] at this
    simp [rewriteUrlItem, this]

theorem passBase_id : ∀ l : List HElem, (∀ e ∈ l, elemEmbedded e = true) → passBase l = l := by
  intro l
  induction l with
  | nil => intro _; rfl
  | cons e rest ih =>
    intro h
    by_cases hc : (e.tag = "base" && (getAttr e "href").isSome) = true
    · have hc' := hc
      rw [Bool.and_eq_true] at hc'
      obtain ⟨ht, hh⟩ := hc'
      rw [decide_eq_true_eq] at ht
      cases hv : getAttr e "href" with
      | none => rw [hv] at hh; simp at hh
      | some v =>
        have he := h e (List.mem_cons_self _ _)
        simp only [elemEmbedded, Bool.and_eq_true, Bool.not_eq_true'] at he
        obtain ⟨⟨⟨⟨⟨⟨⟨⟨h1, h2⟩, h3⟩, h4⟩, h5⟩, h6⟩, h7⟩, h8⟩, h9⟩ := he
        rw [if_pos ht, hv] at h8
        rw [decide_eq_true_eq] at h8
        have hset : setAttr e "href" "." = e := by
          apply setAttr_self
          rw [hv, h8]
        simp only [passBase]
        rw [if_pos hc, hset]
    · simp only [passBase]
      rw [if_neg hc]
      rw [ih (fun x hx => h x (List.mem_cons_of_mem _ hx))]

theorem passStylesheets_id (fuel : Nat) (db : Option String) (map : PartMap) :
    ∀ l : List HElem, (∀ e ∈ l, elemEmbedded e = true) →
      passStylesheets fuel db map l = some l := by
  intro l
  induction l with
  | nil => intro _; rfl
  | cons e rest ih =>
    intro h
    have he := h e (List.mem_cons_self _ _)
    simp only [elemEmbedded, Bool.and_eq_true, Bool.not_eq_true'] at he
    obtain ⟨⟨⟨⟨⟨⟨⟨⟨h1, h2⟩, h3⟩, h4⟩, h5⟩, h6⟩, h7⟩, h8⟩, h9⟩ := he
    simp [passStylesheets, h2, ih (fun x hx => h x (List.mem_cons_of_mem _ hx))]

theorem passStyleElems_id (fuel : Nat) (db : Option String) (map : PartMap)
    (hfuel : 1 ≤ fuel) :
    ∀ l : List HElem, (∀ e ∈ l, elemEmbedded e = true) →
      passStyleElems fuel db map l = some l := by
  intro l
  induction l with
  | nil => intro _; rfl
  | cons e rest ih =>
    intro h
    have hrest := ih (fun x hx => h x (List.mem_cons_of_mem _ hx))
    by_cases hs : e.tag = "style"
    · have he := h e (List.mem_cons_self _ _)
      simp only [elemEmbedded, Bool.and_eq_true, Bool.not_eq_true'] at he
      obtain ⟨⟨⟨⟨⟨⟨⟨⟨h1, h2⟩, h3⟩, h4⟩, h5⟩, h6⟩, h7⟩, h8⟩, h9⟩ := he
      rw [if_pos hs, Bool.and_eq_true] at h6
      obtain ⟨h6a, h6b⟩ := h6
      have himp := inlineCssImportsFuel_noMatch fuel e.inner db map
        (Option.isNone_iff_eq_none.mp h6a) hfuel
      simp [passStyleElems, hs, himp, inlineCssUrls_allData h6b, hrest]
      rw [← hs]
    · simp [passStyleElems, hs, hrest]

theorem passStyleAttrs_id (db : Option String) (map : PartMap)
    (l : List HElem) (h : ∀ e ∈ l, elemEmbedded e = true) : passStyleAttrs db map l = l := by
  unfold passStyleAttrs
  have hcongr : ∀ e ∈ l, (match getAttr e "style" with
      | some css => if css = "" then e else setAttr e "style" (inlineCssUrlsWithMap css db map)
      | none => e) = e := by
    intro e hmem
    have he := h e hmem
    simp only [elemEmbedded, Bool.and_eq_true, Bool.not_eq_true'] at he
    obtain ⟨⟨⟨⟨⟨⟨⟨⟨h1, h2⟩, h3⟩, h4⟩, h5⟩, h6⟩, h7⟩, h8⟩, h9⟩ := he
    cases hst : getAttr e "style" with
    | none => rfl
    | some css =>
      by_cases hempty : css = ""
      · simp [hempty]
      · rw [hst] at h9
        have hall : cssAllData css = true := by
          rw [Bool.or_eq_true] at h9
          rcases h9 with h | h
          · exact absurd (of_decide_eq_true h) hempty
          · exact h
        simp only [if_neg hempty]
        rw [inlineCssUrls_allData hall]
        exact setAttr_self hst
  calc l.map _ = l.map id := List.map_congr_left hcongr
    _ = l := List.map_id _

theorem passImgs_id (db : Option String) (map : PartMap) (hmc : mapClean map = true)
    (l : List HElem) (h : ∀ e ∈ l, elemEmbedded e = true) : passImgs db map l = l := by
  unfold passImgs
  have hcongr : ∀ e ∈ l, (if (e.tag = "img" && (getAttr e "src").isSome) = true then
      match hitChain7 (weirdFix ((getAttr e "src").getD "")) db map with
      | some hit => setAttr e "src" hit.dataURI
      | none => e
    else e) = e := by
    intro e hmem
    by_cases hc : (e.tag = "img" && (getAttr e "src").isSome) = true
    · rw [Bool.and_eq_true] at hc
      obtain ⟨ht, hsome⟩ := hc
      rw [decide_eq_true_eq] at ht
      cases hv : getAttr e "src" with
      | none => rw [hv] at hsome; simp at hsome
      | some s =>
        have he := h e hmem
        simp only [elemEmbedded, Bool.and_eq_true, Bool.not_eq_true'] at he
        obtain ⟨⟨⟨⟨⟨⟨⟨⟨h1, h2⟩, h3⟩, h4⟩, h5⟩, h6⟩, h7⟩, h8⟩, h9⟩ := he
        rw [if_pos ht, hv] at h4
        obtain ⟨hwf, hnone⟩ := hitChain7_dataClean db map h4 hmc
        simp [ht, hv, hwf, hnone]
    · simp [hc]
  calc l.map _ = l.map id := List.map_congr_left hcongr
    _ = l := List.map_id _

theorem passScripts_id (db : Option String) (map : PartMap) (hmc : mapClean map = true)
    (l : List HElem) (h : ∀ e ∈ l, elemEmbedded e = true) : passScripts db map l = l := by
  unfold passScripts
  have hcongr : ∀ e ∈ l, (if (e.tag = "script" && (getAttr e "src").isSome) = true then
      match hitChain7 (weirdFix ((getAttr e "src").getD "")) db map with
      | some hit => { removeAttr e "src" with inner := hitText hit }
      | none => e
    else e) = e := by
    intro e hmem
    by_cases hc : (e.tag = "script" && (getAttr e "src").isSome) = true
    · rw [Bool.and_eq_true] at hc
      obtain ⟨ht, hsome⟩ := hc
      rw [decide_eq_true_eq] at ht
      cases hv : getAttr e "src" with
      | none => rw [hv] at hsome; simp at hsome
      | some s =>
        have he := h e hmem
        simp only [elemEmbedded, Bool.and_eq_true, Bool.not_eq_true'] at he
        obtain ⟨⟨⟨⟨⟨⟨⟨⟨h1, h2⟩, h3⟩, h4⟩, h5⟩, h6⟩, h7⟩, h8⟩, h9⟩ := he
        rw [if_pos ht, hv] at h5
        obtain ⟨hwf, hnone⟩ := hitChain7_dataClean db map h5 hmc
        simp [ht, hv, hwf, hnone]
    · simp [hc]
  calc l.map _ = l.map id := List.map_congr_left hcongr
    _ = l := List.map_id _

theorem passIcons_id (db : Option String) (map : PartMap) (hmc : mapClean map = true)
    (l : List HElem) (h : ∀ e ∈ l, elemEmbedded e = true) : passIcons db map l = l := by
  unfold passIcons
  have hcongr : ∀ e ∈ l, (if isIconLink e = true then
      match hitChain7 (weirdFix ((getAttr e "href").getD "")) db map with
      | some hit => setAttr e "href" hit.dataURI
      | none => e
    else e) = e := by
    intro e hmem
    by_cases hc : isIconLink e = true
    · have he := h e hmem
      simp only [elemEmbedded, Bool.and_eq_true, Bool.not_eq_true'] at he
      obtain ⟨⟨⟨⟨⟨⟨⟨⟨h1, h2⟩, h3⟩, h4⟩, h5⟩, h6⟩, h7⟩, h8⟩, h9⟩ := he
      rw [if_pos hc] at h3
      cases hv : getAttr e "href" with
      | none =>
        have hmiss : hitChain7 (weirdFix "") db map = none := by
          rw [show weirdFix "" = "" from rfl]
          unfold hitChain7
          have hres : resolveAgainst db "" = "" := by
            unfold resolveAgainst
            rw [if_pos rfl]
          rw [hres]
          have hg : mapGet map "" = none :=
            mapGet_none_of_clean hmc (Or.inr (Or.inr (Or.inr rfl)))
          have hgc : mapGet map "cid:" = none :=
            mapGet_none_of_clean hmc (Or.inr (Or.inr (Or.inl rfl)))
          have hgn : mapGet map (normKey "") = none := by
            rw [show normKey "" = "" from rfl]
            exact hg
          have hgj : mapGet map (jsDropCid "") = none := by
            rw [show jsDropCid "" = "" from rfl]
            exact hg
          simp [hg, hgc, hgn, hgj, show ("cid:" ++ "" : String) = "cid:" from rfl,
            show startsWithS "cid!" "" = false from rfl,
            show extractCidFromWeird "" = none from rfl]
        simp [hc, hv, hmiss]
      | some v =>
        rw [hv] at h3
        obtain ⟨hwf, hnone⟩ := hitChain7_dataClean db map h3 hmc
        simp [hc, hv, hwf, hnone]
    · simp [hc]
  calc l.map _ = l.map id := List.map_congr_left hcongr
    _ = l := List.map_id _

theorem passACids_id (map : PartMap) (l : List HElem)
    (h : ∀ e ∈ l, elemEmbedded e = true) : passACids map l = l := by
  unfold passACids
  have hcongr : ∀ e ∈ l, (match getAttr e "href" with
      | some hr =>
        if (e.tag = "a" && (startsWithS "cid:" hr || startsWithS "cid!" hr)) = true then
          let cid := if startsWithS "cid!" hr then extractCidFromWeird hr
            else some (if startsWithCI "cid:" hr then (⟨hr.data.drop 4⟩ : String) else hr)
          match mapGet map ("cid:" ++ (cid.getD "null")) <|>
            (match cid with | some c => mapGet map c | none => none) with
          | some v => setAttr e "href" v.dataURI
          | none => e
        else e
      | none => e) = e := by
    intro e hmem
    cases hv : getAttr e "href" with
    | none => rfl
    | some hr =>
      by_cases hc : (e.tag = "a" && (startsWithS "cid:" hr || startsWithS "cid!" hr)) = true
      · exfalso
        rw [Bool.and_eq_true] at hc
        obtain ⟨ht, hcid⟩ := hc
        rw [decide_eq_true_eq] at ht
        have he := h e hmem
        simp only [elemEmbedded, Bool.and_eq_true, Bool.not_eq_true'] at he
        obtain ⟨⟨⟨⟨⟨⟨⟨⟨h1, h2⟩, h3⟩, h4⟩, h5⟩, h6⟩, h7⟩, h8⟩, h9⟩ := he
        rw [if_pos ht, hv] at h7
        simp only [Bool.not_eq_true', Bool.or_eq_false_iff] at h7
        rw [h7.1, h7.2] at hcid
        simp at hcid
      · simp [hc]
  calc l.map _ = l.map id := List.map_congr_left hcongr
    _ = l := List.map_id _

theorem filter_prefetch_id (l : List HElem) (h : ∀ e ∈ l, elemEmbedded e = true) :
    l.filter (fun e => !isPrefetchLink e) = l := by
  induction l with
  | nil => rfl
  | cons e rest ih =>
    have he := h e (List.mem_cons_self _ _)
    simp only [elemEmbedded, Bool.and_eq_true, Bool.not_eq_true'] at he
    obtain ⟨⟨⟨⟨⟨⟨⟨⟨h1, h2⟩, h3⟩, h4⟩, h5⟩, h6⟩, h7⟩, h8⟩, h9⟩ := he
    simp [List.filter_cons, h1, ih (fun x hx => h x (List.mem_cons_of_mem _ hx))]

/-- The HTML rewriter is the identity on fully embedded documents (spec §8,
Idempotence restated on the rewriter's own output shape). -/
theorem rewriteHtml_embedded_id (fuel : Nat) (doc : List HElem) (db : Option String)
    (map : PartMap) (hdoc : docEmbedded doc = true) (hmc : mapClean map = true)
    (hfuel : 1 ≤ fuel) : rewriteHtmlFuel fuel doc db map = some doc := by
  have h : ∀ e ∈ doc, elemEmbedded e = true := List.all_eq_true.mp hdoc
  unfold rewriteHtmlFuel
  rw [passBase_id doc h, passStylesheets_id fuel db map doc h, Option.some_bind,
    passStyleElems_id fuel db map hfuel doc h, Option.some_bind,
    passStyleAttrs_id db map doc h, passImgs_id db map hmc doc h,
    passScripts_id db map hmc doc h, passIcons_id db map hmc doc h,
    passACids_id map doc h, filter_prefetch_id doc h]

/-! ### The claims -/

/-- On the mutual-import pair, every recursion/iteration budget is exhausted:
each level of the rewrite of `a.css` needs the full rewrite of `b.css` and
vice versa. -/
theorem cycle_diverges : ∀ n : Nat,
    impGo cycleMap n cssA.data (some "a.css") = none ∧
    impGo cycleMap n cssB.data (some "b.css") = none := by
  intro n
  induction n with
  | zero => exact ⟨rfl, rfl⟩
  | succ n ih =>
    have hfA : findImport cssA.data = some ([], "b.css", []) := by decide
    have hfB : findImport cssB.data = some ([], "a.css", []) := by decide
    have hrA : importResolve "b.css" (some "a.css") cycleMap = some (mkValue partB) := by
      decide
    have hrB : importResolve "a.css" (some "b.css") cycleMap = some (mkValue partA) := by
      decide
    have htA : (hitText (mkValue partB)).data = cssB.data := by decide
    have htB : (hitText (mkValue partA)).data = cssA.data := by decide
    have hnbA : (if optTruthy (mkValue partB).contentLocation
        then (mkValue partB).contentLocation else some "a.css") = some "b.css" := by decide
    have hnbB : (if optTruthy (mkValue partA).contentLocation
        then (mkValue partA).contentLocation else some "b.css") = some "a.css" := by decide
    constructor
    · simp only [impGo, hfA, hrA]
      rw [htA, hnbA, ih.2]
    · simp only [impGo, hfB, hrB]
      rw [htB, hnbB, ih.1]

/-- C1 counterexample: on the concrete mutually-importing pair, the JS
`inlineCssImportsWithMap` call never returns — no finite budget of loop steps
and recursion depth completes it (the claim asserts it terminates with the
revisited import dropped). -/
theorem C1_counterexample : ¬ cssImportTerminates cssA (some "a.css") cycleMap := by
  rintro ⟨fuel, out, hout⟩
  have hdiv := (cycle_diverges fuel).1
  unfold inlineCssImportsFuel at hout
  rw [hdiv] at hout
  simp at hout

/-- C1 (amended): `inlineCssImportsWithMap` has no visited-imports guard; on
two stylesheet parts that `@import` each other the recursive rewrite diverges
in both directions — for every fuel the embedded computation is still
unfinished. -/
theorem C1_amended : ∀ fuel : Nat,
    inlineCssImportsFuel fuel cssA (some "a.css") cycleMap = none ∧
    inlineCssImportsFuel fuel cssB (some "b.css") cycleMap = none := by
  intro fuel
  have h := cycle_diverges fuel
  unfold inlineCssImportsFuel
  rw [h.1, h.2]
  exact ⟨rfl, rfl⟩

/-- C2 counterexample: a base64 part whose body still contains a non-alphabet
character after whitespace stripping parses without any error — the claimed
hard `MalformedEncoding` failure does not exist in the code. -/
theorem C2_counterexample :
    parseMHTML c2container = Except.ok [c2part] ∧
    (("QU J*D".data.filter (fun c => !isSpaceJs c)).any (fun c => (b64Val c).isNone)) = true := by
  decide

theorem b64Val_isSpace {c : Char} (h : isSpaceJs c = true) : b64Val c = none := by
  simp only [isSpaceJs, Bool.or_eq_true, decide_eq_true_eq] at h
  rcases h with ((((h | h) | h) | h) | h) | h <;> subst h <;> decide

theorem filterMap_b64Val_filter (body : List Char) :
    (body.filter (fun c => !isSpaceJs c)).filterMap b64Val = body.filterMap b64Val := by
  induction body with
  | nil => rfl
  | cons c rest ih =>
    by_cases hsp : isSpaceJs c = true
    · simp [List.filter_cons, List.filterMap_cons, hsp, b64Val_isSpace hsp, ih]
    · rw [List.filter_cons, if_pos (by simp [hsp]), List.filterMap_cons,
        List.filterMap_cons, ih]

/-- C2 (amended): base64 decoding strips embedded whitespace (removing it
first changes nothing) and never raises an error — a body with characters
outside the alphabet is decoded best-effort with the offending characters
silently skipped, as the concrete container shows. -/
theorem C2_amended :
    (∀ body : List Char,
      nodeB64Decode (body.filter (fun c => !isSpaceJs c)) = nodeB64Decode body) ∧
    parseMHTML c2container = Except.ok [c2part] ∧
    c2part.buf = nodeB64Decode ("QU J*D".data.filter (fun c => !isSpaceJs c)) := by
  refine ⟨?_, by decide, by decide⟩
  intro body
  unfold nodeB64Decode
  rw [filterMap_b64Val_filter]

/-- C3: the container parser throws one of the two `MalformedContainer`
errors exactly when either no CRLF-CRLF-terminated outer header block exists
or the outer `Content-Type` has no parsable `boundary` parameter; and any
parser error aborts the whole conversion with that error, so no output
document is produced. -/
theorem C3_ok (s : String) :
    ((∃ e, parseMHTML s = Except.error e ∧ isMalformedContainer e) ↔
      (hasHeaderBlock s = false ∨ specNoBoundary s = true)) ∧
    ∀ e, parseMHTML s = Except.error e → convertCore s = Except.error e := by
  have hp : ("\r\n\r\n".data : List Char) ≠ [] := by decide
  have hiso := indexOfSub_isSome_eq_containsSub hp s.data
  have hcc : ∀ e, parseMHTML s = Except.error e → convertCore s = Except.error e := by
    intro e he
    unfold convertCore
    rw [he]
  refine ⟨?_, hcc⟩
  cases hI : indexOfSub "\r\n\r\n".data s.data with
  | none =>
    have hhb : hasHeaderBlock s = false := by
      unfold hasHeaderBlock
      rw [← hiso, hI]
      rfl
    have hpm : parseMHTML s = Except.error PError.invalidNoHeader := by
      unfold parseMHTML
      rw [hI]
    exact ⟨fun _ => Or.inl hhb, fun _ => ⟨PError.invalidNoHeader, hpm, Or.inl rfl⟩⟩
  | some i =>
    have hhb : hasHeaderBlock s = true := by
      unfold hasHeaderBlock
      rw [← hiso, hI]
      rfl
    cases hB : boundaryOf (jsOr (getHd (parseHeaders ⟨s.data.take i⟩) "content-type") "") with
    | none =>
      have hnb : specNoBoundary s = true := by
        simp only [specNoBoundary, hI, hB]
        rfl
      have hpm : parseMHTML s = Except.error PError.invalidNoBoundary := by
        simp only [parseMHTML, hI, hB]
      exact ⟨fun _ => Or.inr hnb, fun _ => ⟨PError.invalidNoBoundary, hpm, Or.inr rfl⟩⟩
    | some b =>
      have hnb : specNoBoundary s = false := by
        simp only [specNoBoundary, hI, hB]
        rfl
      have hpm : parseMHTML s =
          Except.ok (((splitOn ("--" ++ b) s).drop 1).filterMap parsePart) := by
        simp only [parseMHTML, hI, hB]
      constructor
      · rintro ⟨e, he, _⟩
        rw [hpm] at he
        exact Except.noConfusion he
      · rintro (h | h)
        · rw [hhb] at h
          exact absurd h (by decide)
        · rw [hnb] at h
          exact absurd h (by decide)

theorem C3_witness :
    (∃ e, parseMHTML "" = Except.error e ∧ isMalformedContainer e) ∧
    convertCore "" = Except.error PError.invalidNoHeader := by
  refine ⟨(C3_ok "").1.mpr (Or.inl (by decide)),
    (C3_ok "").2 PError.invalidNoHeader (by decide)⟩

/-- C4 counterexample: the root filter is `startsWith("text/html")`, not
equality on `content_type` — a container whose only part is `text/htmlx`
(not `text/html`, so the claim demands a `NoRootDocument` failure) is
accepted and that part becomes the root. -/
theorem C4_counterexample :
    parseMHTML c4container = Except.ok [c4part] ∧
    c4part.contentType ≠ "text/html" ∧
    convertCore c4container = Except.ok (c4part, [c4part]) := by
  refine ⟨by decide, by decide, by decide⟩

/-- C4 (amended): the root candidates are the parts whose `content_type`
merely starts with `text/html`; among those the part with the largest decoded
byte length wins, earlier-encountered parts winning ties, and only when no
candidate exists at all does selection fail. -/
theorem C4_amended (parts : List Part) :
    ((parts.filter fun p => startsWithS "text/html" p.contentType) = [] →
      selectRootE parts = Except.error PError.noHtmlPart) ∧
    ∀ r, selectRootE parts = Except.ok r →
      IsFirstLargest (parts.filter fun p => startsWithS "text/html" p.contentType) r := by
  unfold selectRootE
  cases hF : parts.filter (fun p => startsWithS "text/html" p.contentType) with
  | nil => exact ⟨fun _ => rfl, fun r he => Except.noConfusion he⟩
  | cons x xs =>
    refine ⟨fun h => List.noConfusion h, ?_⟩
    intro r he
    obtain ⟨r', hr', hfl⟩ := fmFold_firstLargest xs x
    have hhead : (jsStableSortDesc (x :: xs)).head? = some r' := by
      unfold jsStableSortDesc
      rw [head?_sortFoldl]
      simp only [List.head?_nil, List.foldl_cons]
      rw [show fmStep none x = some x from rfl]
      exact hr'
    have hD : (jsStableSortDesc (x :: xs)).headD x = r' := headD_of_head? hhead
    have he' : Except.ok ((jsStableSortDesc (x :: xs)).headD x) = Except.ok r := he
    have hrr : r = r' := by
      rw [hD] at he'
      exact (Except.ok.inj he').symm
    rw [hrr]
    exact hfl

theorem C4_amended_witness :
    selectRootE ([] : List Part) = Except.error PError.noHtmlPart ∧
    IsFirstLargest ([c4part].filter fun p => startsWithS "text/html" p.contentType) c4part := by
  refine ⟨(C4_amended []).1 rfl, (C4_amended [c4part]).2 c4part (by decide)⟩

theorem find?_append_some {α : Type} {f : α → Bool} {l : List α} {a : α}
    (h : l.find? f = some a) (l' : List α) : (l ++ l').find? f = some a := by
  induction l with
  | nil => simp [List.find?] at h
  | cons x xs ih =>
    rw [List.cons_append]
    cases hfx : f x with
    | true =>
      rw [List.find?_cons_of_pos _ hfx] at h ⊢
      exact h
    | false =>
      rw [List.find?_cons_of_neg _ (by rw [hfx]; exact Bool.false_ne_true)] at h ⊢
      exact ih h

/-- C5: for every part sequence and key, the asset index resolves the key to
the first part registered under it (lookup equals `find?` over the
registration keys in encounter order), and appending later parts never
changes an entry that already resolves — first registration wins. -/
theorem C5_ok (parts : List Part) (db : Option String) (k : String) :
    mapGet (buildPartMap parts db) k =
      (parts.find? (fun p => decide (k ∈ regKeys p db))).map mkValue ∧
    ∀ v more, mapGet (buildPartMap parts db) k = some v →
      mapGet (buildPartMap (parts ++ more) db) k = some v := by
  refine ⟨mapGet_buildPartMap parts db k, ?_⟩
  intro v more hv
  rw [mapGet_buildPartMap] at hv ⊢
  obtain ⟨p, hp, hpv⟩ := Option.map_eq_some'.mp hv
  rw [find?_append_some hp more]
  simp [hpv]

theorem C5_witness :
    mapGet (buildPartMap [pImg] none) "cid:abc123" = some (mkValue pImg) ∧
    mapGet (buildPartMap ([pImg] ++ [pImg2]) none) "cid:abc123" = some (mkValue pImg) := by
  refine ⟨by decide,
    (C5_ok [pImg] none "cid:abc123").2 (mkValue pImg) [pImg2] (by decide)⟩

/-- C6 counterexample: an `@import` rule in a syntax the regex does not
recognise survives the CSS rewrite verbatim — the rewriter's output still
contains an `@import` statement, refuting the zero-imports guarantee. -/
theorem C6_counterexample :
    inlineCssImportsFuel 2 c6css none [] = some c6css ∧
    containsStr c6css "@import" = true := by
  exact ⟨by decide, by decide⟩

/-- C6 (amended): only `@import` rules in the recognised syntax
(`url(...)` or a plain quoted target) are processed — a stylesheet with no
recognised rule passes through unchanged even when `@import` text remains;
a recognised rule whose target resolves is replaced by the imported text,
and a recognised rule whose target misses is dropped. -/
theorem C6_amended :
    (∀ (fuel : Nat) (css : String) (base : Option String) (map : PartMap),
      findImport css.data = none → 1 ≤ fuel →
      inlineCssImportsFuel fuel css base map = some css) ∧
    inlineCssImportsFuel 3 "@import url(sub.css);" none subMap = some "body{color:red}" ∧
    inlineCssImportsFuel 3 "@import url(missing.css);a{x:y}" none [] = some "a{x:y}" := by
  refine ⟨fun fuel css base map hm hf => inlineCssImportsFuel_noMatch fuel css base map hm hf,
    by decide, by decide⟩

theorem C6_amended_witness :
    inlineCssImportsFuel 1 "a{x:y}" none [] = some "a{x:y}" :=
  C6_amended.1 1 "a{x:y}" none [] (by decide) (by decide)

theorem mem_regKeys_cid {p : Part} {id : String} (db : Option String)
    (hid : p.contentId = some id) (hne : id ≠ "") (hnorm : normKey id = id) :
    ("cid:" ++ id) ∈ regKeys p db ∧ id ∈ regKeys p db ∧
      ("cid!" ++ id ++ "@mhtml.blink") ∈ regKeys p db := by
  have hct : optTruthy p.contentId = true := by
    rw [hid]
    simp [optTruthy, hne]
  have hgd : p.contentId.getD "" = id := by rw [hid]; rfl
  have hcidne : ("cid:" ++ id) ≠ "" := by
    intro h
    have h2 := congrArg String.data h
    simp [String.data_append] at h2
  have hbangne : ("cid!" ++ id ++ "@mhtml.blink") ≠ "" := by
    intro h
    have h2 := congrArg String.data h
    simp [String.data_append] at h2
  unfold regKeys partKeys
  rw [hct, hgd, hnorm]
  refine ⟨?_, ?_, ?_⟩ <;>
    simp [List.mem_filter, List.mem_append, hne, hcidne, hbangne]

theorem mapGet_buildPartMap_first {pre rest : List Part} {p : Part} {db : Option String}
    {k : String} (hk : k ∈ regKeys p db) (hpk : ∀ q ∈ pre, k ∉ regKeys q db) :
    mapGet (buildPartMap (pre ++ p :: rest) db) k = some (mkValue p) := by
  rw [mapGet_buildPartMap]
  rw [find?_append_of_none (fun q hq => by simp [hpk q hq]) (p :: rest)]
  rw [List.find?_cons_of_pos _ (by simp [hk])]
  rfl

/-- C7: for a part whose `Content-ID` header carries the token `id` (and no
earlier part claimed its keys), the placeholder spelling
`cid!<id>@mhtml.blink`, the `cid:<id>` spelling, and the bare `<id>` all
resolve in the asset index to the same entry: that part with its inline
payload. -/
theorem C7_ok (pre rest : List Part) (p : Part) (db : Option String) (id : String)
    (hid : p.contentId = some id) (hne : id ≠ "") (hnorm : normKey id = id)
    (hpre : ∀ q ∈ pre, ("cid:" ++ id) ∉ regKeys q db ∧ id ∉ regKeys q db ∧
      ("cid!" ++ id ++ "@mhtml.blink") ∉ regKeys q db) :
    mapGet (buildPartMap (pre ++ p :: rest) db) ("cid:" ++ id) = some (mkValue p) ∧
    mapGet (buildPartMap (pre ++ p :: rest) db) id = some (mkValue p) ∧
    mapGet (buildPartMap (pre ++ p :: rest) db) ("cid!" ++ id ++ "@mhtml.blink") =
      some (mkValue p) := by
  obtain ⟨hm1, hm2, hm3⟩ := mem_regKeys_cid db hid hne hnorm
  exact ⟨mapGet_buildPartMap_first hm1 (fun q hq => (hpre q hq).1),
    mapGet_buildPartMap_first hm2 (fun q hq => (hpre q hq).2.1),
    mapGet_buildPartMap_first hm3 (fun q hq => (hpre q hq).2.2)⟩

theorem C7_witness :
    mapGet (buildPartMap ([partA] ++ pImg :: []) none) ("cid:" ++ "abc123") =
      some (mkValue pImg) ∧
    mapGet (buildPartMap ([partA] ++ pImg :: []) none) "abc123" = some (mkValue pImg) ∧
    mapGet (buildPartMap ([partA] ++ pImg :: []) none) ("cid!" ++ "abc123" ++ "@mhtml.blink") =
      some (mkValue pImg) :=
  C7_ok [partA] [] pImg none "abc123" (by decide) (by decide) (by decide) (by decide)

/-- C8 counterexample: even with an empty asset index (every reference is a
miss), the rewriter changes a non-prefetch element — the first `base[href]`
is unconditionally forced to `.`, so a remote base URL is not left
byte-for-byte unchanged. -/
theorem C8_counterexample :
    rewriteHtmlFuel 1 [⟨"base", [("href", "http://example.com/")], ""⟩] none [] =
      some [⟨"base", [("href", ".")], ""⟩] ∧
    isPrefetchLink ⟨"base", [("href", "http://example.com/")], ""⟩ = false := by
  exact ⟨by decide, by decide⟩

/-- C8 (amended): with an index where every reference misses, the rewriter's
output is the input with exactly these exceptions applied — the first
`base[href]` forced to `.`, stylesheet links whose href is an unresolved
`cid!` placeholder removed, prefetch-family links removed, and recognised
`@import` rules dropped from `<style>` texts; every other reference is left
byte-for-byte unchanged. -/
theorem C8_amended (fuel : Nat) (doc : List HElem) (db : Option String)
    (hb : ∀ e ∈ doc, e.inner.data.length < fuel) :
    rewriteHtmlFuel fuel doc db [] = some (stripHints doc) :=
  rewriteHtml_nilMap fuel doc db hb

theorem C8_amended_witness :
    rewriteHtmlFuel 1 cxDoc none [] = some (stripHints cxDoc) :=
  C8_amended 1 cxDoc none (by decide)

/-- C9: on a document whose references are all already embedded (`data:`
payloads, a `.` base, no stylesheet or prefetch links, no `cid` anchors, no
recognised imports or non-data urls in style text) and any index built from
real parts, the rewriter is the identity — a second pass over its own output
changes no attribute, element, or rule. -/
theorem C9_ok (fuel : Nat) (doc : List HElem) (db : Option String) (map : PartMap)
    (hdoc : docEmbedded doc = true) (hmc : mapClean map = true) (hfuel : 1 ≤ fuel) :
    rewriteHtmlFuel fuel doc db map = some doc :=
  rewriteHtml_embedded_id fuel doc db map hdoc hmc hfuel

theorem C9_witness : rewriteHtmlFuel 1 embDoc none subMap = some embDoc :=
  C9_ok 1 embDoc none subMap (by decide) (by decide) (by decide)

/-- C10: beyond the two documented spellings, the index also registers the
bare `Content-ID` token itself as a lookup key, so a reference consisting of
just the token resolves to that part. -/
theorem C10_ok (pre rest : List Part) (p : Part) (db : Option String) (id : String)
    (hid : p.contentId = some id) (hne : id ≠ "") (hnorm : normKey id = id)
    (hpre : ∀ q ∈ pre, id ∉ regKeys q db) :
    id ∈ regKeys p db ∧
    mapGet (buildPartMap (pre ++ p :: rest) db) id = some (mkValue p) := by
  have hm := (mem_regKeys_cid db hid hne hnorm).2.1
  exact ⟨hm, mapGet_buildPartMap_first hm hpre⟩

theorem C10_witness :
    "abc123" ∈ regKeys pImg none ∧
    mapGet (buildPartMap ([partB] ++ pImg :: []) none) "abc123" = some (mkValue pImg) :=
  C10_ok [partB] [] pImg none "abc123" (by decide) (by decide) (by decide) (by decide)

end MHTML
